import Mathlib

/-!
Verification of the asar archive tool (`asartool.py`) against its
natural-language specification.

Modelling conventions (shallow embedding):
* Python `str` values (file names, paths, link targets) are modelled as
  `List Nat` of Unicode scalar values (the spec's string type); byte
  strings are `List Nat` with entries below 256.
* Python `dict`s produced by `json.loads`/built by the tree builder are
  modelled as ordered association lists `List (Str × PyVal)`; dictionary
  assignment is `insertReplace` (replace in place, else append), so keys
  are unique exactly as for Python dicts.
* Machine integers: the header record fields are 32-bit little-endian;
  `encodeU32`/`decodeU32` make the truncation explicit.
* Filesystem effects are modelled by explicit state passing.
-/

namespace Asartool

/-- Strings as lists of Unicode scalar values (code points). -/
abbrev Str := List Nat

/-! ## round_up (asartool.py lines 15-16)

`def round_up(i, m): return (i + m - 1) & ~(m - 1)` over Python's
arbitrary-precision two's-complement integers, i.e. over `Int`. -/

def round_up (i m : Int) : Int := Int.land (i + m - 1) (~~~(m - 1))

/-- The spec's `align4(n) = (n+3) & ~3` (spec section 3). -/
def specAlign4 (n : Nat) : Nat := (Int.land ((n : Int) + 3) (~~~(3 : Int))).toNat

/-- `round_up` with nonnegative operands, viewed in `Nat`
(every use in the source has `i ≥ 0` and `m = 4`). -/
def roundUpN (i m : Nat) : Nat := (round_up (i : Int) (m : Int)).toNat

theorem Nat.ldiff_three (a : Nat) : Nat.ldiff a 3 = a / 4 * 4 := by
  apply Nat.eq_of_testBit_eq
  intro i
  rw [Nat.testBit_ldiff]
  have h4 : a / 4 * 4 = (a >>> 2) <<< 2 := by
    rw [Nat.shiftRight_eq_div_pow, Nat.shiftLeft_eq]
  rw [h4, Nat.testBit_shiftLeft, Nat.testBit_shiftRight]
  by_cases h2 : 2 ≤ i
  · obtain ⟨j, rfl⟩ : ∃ j, i = j + 2 := ⟨i - 2, by omega⟩
    have h3 : Nat.testBit 3 (j + 2) = false := by
      rw [Nat.testBit_add_one, Nat.testBit_add_one]
      exact Nat.zero_testBit j
    simp [h3, Nat.add_comm 2 j]
  · have hd : decide (2 ≤ i) = false := by simp [h2]
    have h3 : Nat.testBit 3 i = true := by
      have : i = 0 ∨ i = 1 := by omega
      rcases this with h | h <;> subst h <;> rfl
    rw [hd, h3]
    simp

theorem land_cast_three (n : Nat) :
    Int.land ((n : Int) + 3) (~~~(3 : Int)) = (((n + 3) / 4 * 4 : Nat) : Int) := by
  have hcast : ((n : Int) + 3) = ((n + 3 : Nat) : Int) := by push_cast; ring
  rw [hcast]
  have hland : Int.land ((n + 3 : Nat) : Int) (~~~(3 : Int)) = ((Nat.ldiff (n + 3) 3 : Nat) : Int) := rfl
  rw [hland, Nat.ldiff_three]

theorem specAlign4_eq (n : Nat) : specAlign4 n = (n + 3) / 4 * 4 := by
  rw [specAlign4, land_cast_three]
  exact Int.toNat_natCast _

theorem roundUpN_four (n : Nat) : roundUpN n 4 = specAlign4 n := by
  rw [roundUpN, round_up, specAlign4]
  have h1 : (n : Int) + ((4 : Nat) : Int) - 1 = (n : Int) + 3 := by omega
  have h2 : (((4 : Nat) : Int) - 1) = 3 := by omega
  rw [h1, h2]

theorem roundUpN_four_eq (n : Nat) : roundUpN n 4 = (n + 3) / 4 * 4 := by
  rw [roundUpN_four, specAlign4_eq]

theorem specAlign4_ge (n : Nat) : n ≤ specAlign4 n := by
  rw [specAlign4_eq]; omega

/-! ## Decimal rendering and parsing

`str(offset)` renders a nonnegative int in decimal (asartool.py line 78);
`int(s)` parses it back (lines 157-158).  `digitsVal` is the value of a
digit string, as accumulated by an integer parser. -/

/-- `toDecimalAux` is fuelled so that the definition is structural (and
kernel-computable); `toDecimal` supplies fuel `n + 1`, which always
suffices since the argument strictly decreases. -/
def toDecimalAux : Nat → Nat → List Nat
  | 0, _ => []
  | f + 1, n =>
    if n < 10 then [n + 48]
    else toDecimalAux f (n / 10) ++ [n % 10 + 48]

def toDecimal (n : Nat) : List Nat := toDecimalAux (n + 1) n

theorem toDecimalAux_congr : ∀ (n f1 f2 : Nat), n < f1 → n < f2 →
    toDecimalAux f1 n = toDecimalAux f2 n := by
  intro n
  induction n using Nat.strong_induction_on with
  | _ n ih =>
    intro f1 f2 h1 h2
    obtain ⟨g1, rfl⟩ : ∃ g1, f1 = g1 + 1 := ⟨f1 - 1, by omega⟩
    obtain ⟨g2, rfl⟩ : ∃ g2, f2 = g2 + 1 := ⟨f2 - 1, by omega⟩
    rw [toDecimalAux, toDecimalAux]
    by_cases h : n < 10
    · rw [if_pos h, if_pos h]
    · rw [if_neg h, if_neg h]
      have hlt : n / 10 < n := Nat.div_lt_self (by omega) (by omega)
      rw [ih (n / 10) hlt g1 g2 (by omega) (by omega)]

theorem toDecimal_unfold (n : Nat) :
    toDecimal n = if n < 10 then [n + 48] else toDecimal (n / 10) ++ [n % 10 + 48] := by
  rw [toDecimal, toDecimalAux]
  by_cases h : n < 10
  · rw [if_pos h, if_pos h]
  · rw [if_neg h, if_neg h]
    have hlt : n / 10 < n := Nat.div_lt_self (by omega) (by omega)
    rw [toDecimal, toDecimalAux_congr (n / 10) n (n / 10 + 1) hlt (by omega)]

def digitsVal (ds : List Nat) : Nat := ds.foldl (fun a d => a * 10 + (d - 48)) 0

theorem digitsVal_aux (ds : List Nat) :
    ∀ a : Nat, ds.foldl (fun a d => a * 10 + (d - 48)) a =
      a * 10 ^ ds.length + digitsVal ds := by
  induction ds with
  | nil => intro a; simp [digitsVal]
  | cons d ds ih =>
    intro a
    rw [List.foldl_cons, ih]
    have hd : digitsVal (d :: ds) = (d - 48) * 10 ^ ds.length + digitsVal ds := by
      rw [digitsVal, List.foldl_cons, ih]
      simp
    rw [hd, List.length_cons, Nat.pow_succ]
    ring

theorem digitsVal_append_singleton (ds : List Nat) (d : Nat) :
    digitsVal (ds ++ [d]) = digitsVal ds * 10 + (d - 48) := by
  rw [digitsVal, List.foldl_append]
  rfl

theorem digitsVal_toDecimal (n : Nat) : digitsVal (toDecimal n) = n := by
  induction n using Nat.strong_induction_on with
  | _ n ih =>
    rw [toDecimal_unfold]
    by_cases h : n < 10
    · simp only [h, if_pos]
      simp [digitsVal]
    · rw [if_neg h]
      rw [digitsVal_append_singleton, ih (n / 10) (Nat.div_lt_self (by omega) (by omega))]
      omega

theorem toDecimal_digits (n : Nat) : ∀ d ∈ toDecimal n, 48 ≤ d ∧ d ≤ 57 := by
  induction n using Nat.strong_induction_on with
  | _ n ih =>
    rw [toDecimal_unfold]
    by_cases h : n < 10
    · rw [if_pos h]
      intro d hd
      simp at hd
      omega
    · rw [if_neg h]
      intro d hd
      rcases List.mem_append.mp hd with h1 | h2
      · exact ih (n / 10) (Nat.div_lt_self (by omega) (by omega)) d h1
      · simp at h2
        omega

theorem toDecimal_ne_nil (n : Nat) : toDecimal n ≠ [] := by
  rw [toDecimal_unfold]
  by_cases h : n < 10 <;> simp [h]

/-! ## Hexadecimal digits (for the `\uXXXX` escapes of `json.dumps`) -/

/-- One lowercase hex digit, as emitted by Python's `'%04x'` format. -/
def hexDig (d : Nat) : Nat := if d < 10 then d + 48 else d + 87

/-- Hex digit value accepted by `json.loads` (0-9, a-f, A-F). -/
def hexVal (c : Nat) : Option Nat :=
  if 48 ≤ c ∧ c ≤ 57 then some (c - 48)
  else if 97 ≤ c ∧ c ≤ 102 then some (c - 87)
  else if 65 ≤ c ∧ c ≤ 70 then some (c - 55)
  else none

theorem hexVal_hexDig : ∀ d : Nat, d < 16 → hexVal (hexDig d) = some d := by
  have h : ∀ d : Fin 16, hexVal (hexDig d.val) = some d.val := by decide
  intro d hd
  exact h ⟨d, hd⟩

/-- The four hex digits of `'%04x' % n` for `n < 0x10000`. -/
def hex4 (n : Nat) : List Nat :=
  [hexDig (n / 4096), hexDig (n / 256 % 16), hexDig (n / 16 % 16), hexDig (n % 16)]

def parseHex4 (h1 h2 h3 h4 : Nat) : Option Nat :=
  match hexVal h1, hexVal h2, hexVal h3, hexVal h4 with
  | some d1, some d2, some d3, some d4 => some (((d1 * 16 + d2) * 16 + d3) * 16 + d4)
  | _, _, _, _ => none

theorem parseHex4_hex4 (n : Nat) (h : n < 65536) :
    parseHex4 (hexDig (n / 4096)) (hexDig (n / 256 % 16)) (hexDig (n / 16 % 16)) (hexDig (n % 16)) = some n := by
  simp only [parseHex4, hexVal_hexDig (n / 4096) (by omega), hexVal_hexDig (n / 256 % 16) (by omega),
      hexVal_hexDig (n / 16 % 16) (by omega), hexVal_hexDig (n % 16) (by omega)]
  congr 1
  omega

/-! ## The JSON value model

`json.dumps`/`json.loads` exchange Python values built from dicts, strings
and ints (the only shapes the tool produces: tree nodes, names, sizes,
offsets).  Dicts are ordered association lists with unique keys. -/

inductive PyVal where
  | str (s : Str)
  | int (n : Int)
  | obj (entries : List (Str × PyVal))

/-- First-match association lookup (Python dict keys are unique). -/
def lookupKey (k : Str) : List (Str × PyVal) → Option PyVal
  | [] => none
  | (k', v) :: rest => if k' = k then some v else lookupKey k rest

def hasKey (k : Str) (l : List (Str × PyVal)) : Bool := (lookupKey k l).isSome

/-- Python dict assignment `d[k] = v`: replaces in place, else appends. -/
def insertReplace (l : List (Str × PyVal)) (kv : Str × PyVal) : List (Str × PyVal) :=
  match l with
  | [] => [kv]
  | (k', v') :: rest => if k' = kv.1 then kv :: rest else (k', v') :: insertReplace rest kv

/-- `dict(pairs)` as built by `json.loads`: left fold of dict assignment. -/
def dictOfPairs (ps : List (Str × PyVal)) : List (Str × PyVal) := ps.foldl insertReplace []

def keysOf (l : List (Str × PyVal)) : List Str := l.map Prod.fst

def noDupKeys : List (Str × PyVal) → Bool
  | [] => true
  | (k, _) :: rest => !(hasKey k rest) && noDupKeys rest

/-- Unicode scalar value (the spec's string alphabet: no surrogates). -/
def validCp (c : Nat) : Bool := c < 55296 || (57344 ≤ c && c < 1114112)

def validStr (s : Str) : Bool := s.all validCp

mutual

/-- Well-formed Python value: dict keys unique, strings made of scalar
values.  Every value built by the tree builder or by `json.loads` is
well-formed. -/
def wfV : PyVal → Bool
  | .str s => validStr s
  | .int _ => true
  | .obj l => noDupKeys l && wfL l
  termination_by structural v => v

def wfL : List (Str × PyVal) → Bool
  | [] => true
  | (k, v) :: rest => validStr k && wfV v && wfL rest
  termination_by structural l => l

end

/-! ## `json.dumps(v, sort_keys=True, separators=(',',':'))` (asartool.py line 98)

With `sort_keys=True` every object's items are emitted in ascending key
order (Python string order = code-point lexicographic).  We model this by
first sorting every object recursively (`canonSort`) and then printing in
order (`dumpVal`).  `ensure_ascii` (the default) escapes every code point
outside 0x20-0x7E, so the output bytes coincide with the output code
points. -/

/-- Code-point lexicographic `≤` on strings (Python `str` comparison). -/
def lexLe : Str → Str → Bool
  | [], _ => true
  | _ :: _, [] => false
  | a :: as, b :: bs => if a < b then true else if a = b then lexLe as bs else false

def entryLe (p q : Str × PyVal) : Prop := lexLe p.1 q.1 = true

instance : DecidableRel entryLe := fun p q => by
  unfold entryLe; infer_instance

/-- `sorted(d.items())` on one object level (stable sort by key). -/
def sortEntries (l : List (Str × PyVal)) : List (Str × PyVal) :=
  List.insertionSort entryLe l

mutual

def canonSort : PyVal → PyVal
  | .str s => .str s
  | .int n => .int n
  | .obj l => .obj (sortEntries (canonEntries l))
  termination_by structural v => v

def canonEntries : List (Str × PyVal) → List (Str × PyVal)
  | [] => []
  | (k, v) :: rest => (k, canonSort v) :: canonEntries rest
  termination_by structural l => l

end

/-- The escape of one code point under `ensure_ascii=True`
(`json.encoder`: `\"`, `\\`, `\b`, `\t`, `\n`, `\f`, `\r`, `\uXXXX`,
surrogate pairs above 0xFFFF; 0x20-0x7E literal). -/
def escChar (c : Nat) : List Nat :=
  if c = 34 then [92, 34]
  else if c = 92 then [92, 92]
  else if c = 8 then [92, 98]
  else if c = 9 then [92, 116]
  else if c = 10 then [92, 110]
  else if c = 12 then [92, 102]
  else if c = 13 then [92, 114]
  else if 32 ≤ c ∧ c ≤ 126 then [c]
  else if c < 65536 then 92 :: 117 :: hex4 c
  else (92 :: 117 :: hex4 (55296 + (c - 65536) / 1024)) ++ (92 :: 117 :: hex4 (56320 + (c - 65536) % 1024))

def escBody : Str → List Nat
  | [] => []
  | c :: cs => escChar c ++ escBody cs

/-- A JSON string literal: quote, escaped body, quote. -/
def escString (s : Str) : List Nat := 34 :: escBody s ++ [34]

/-- `repr` of a Python int (decimal, `-` sign for negatives). -/
def intRepr (n : Int) : List Nat :=
  if n < 0 then 45 :: toDecimal n.natAbs else toDecimal n.toNat

mutual

/-- Print a (pre-sorted) value with separators `(',', ':')`. -/
def dumpVal : PyVal → List Nat
  | .str s => escString s
  | .int n => intRepr n
  | .obj [] => [123, 125]
  | .obj ((k, v) :: rest) => 123 :: (escString k ++ 58 :: dumpVal v ++ dumpRest rest) ++ [125]
  termination_by structural v => v

def dumpRest : List (Str × PyVal) → List Nat
  | [] => []
  | (k, v) :: rest => 44 :: (escString k ++ 58 :: dumpVal v ++ dumpRest rest)
  termination_by structural l => l

end

/-- `json.dumps(v, sort_keys=True, separators=(',', ':'))` as a byte list
(`ensure_ascii` keeps everything below 0x80, so bytes = code points). -/
def jsonDumps (v : PyVal) : List Nat := dumpVal (canonSort v)

/-! ## `json.loads` (asartool.py line 37)

Recursive-descent parser for the JSON grammar restricted to the value
forms the tool ever exchanges: objects, strings, and integers (no
floats, exponents, arrays, booleans or null; the encoder on line 98
emits none of those).  Whitespace handling is also omitted: the encoder
uses separators `(',', ':')` and emits none, and no theorem below feeds
the parser anything but encoder output.  The input is the code-point
sequence of the document (the UTF-8 decode of the byte stream; on the
encoder's pure-ASCII output the two coincide). -/

/-- The short escapes of `json.decoder.BACKSLASH` (including `\/`). -/
def decodeEsc (e : Nat) : Option Nat :=
  if e = 34 then some 34
  else if e = 92 then some 92
  else if e = 47 then some 47
  else if e = 98 then some 8
  else if e = 102 then some 12
  else if e = 110 then some 10
  else if e = 114 then some 13
  else if e = 116 then some 9
  else none

/-- Parse a string body after the opening quote, following
`json.decoder.py_scanstring` in strict mode: raw control characters are
rejected, `\uXXXX` escapes are decoded, and a high surrogate directly
followed by a `\uXXXX` low surrogate is combined into one code point
(otherwise the lone surrogate is kept).  The recursion is fuelled; every
step consumes at least one input character, so fuel `input.length + 1`
(what every caller passes) makes the fuel bound unreachable and the
function agree with the unfuelled Python scanner. -/
def parseStringAux : Nat → List Nat → Option (Str × List Nat)
  | 0, _ => none
  | _ + 1, [] => none
  | f + 1, c :: rest =>
    if c = 34 then some ([], rest)
    else if c = 92 then
      match rest with
      | [] => none
      | e :: r2 =>
        if e = 117 then
          match r2 with
          | h1 :: h2 :: h3 :: h4 :: r3 =>
            (match parseHex4 h1 h2 h3 h4 with
             | none => none
             | some u =>
               if 55296 ≤ u ∧ u ≤ 56319 then
                 match r3 with
                 | 92 :: 117 :: g1 :: g2 :: g3 :: g4 :: r4 =>
                   (match parseHex4 g1 g2 g3 g4 with
                    | none => none
                    | some u2 =>
                      if 56320 ≤ u2 ∧ u2 ≤ 57343 then
                        (parseStringAux f r4).map
                          (fun p => ((65536 + (u - 55296) * 1024 + (u2 - 56320)) :: p.1, p.2))
                      else (parseStringAux f r3).map (fun p => (u :: p.1, p.2)))
                 | _ => (parseStringAux f r3).map (fun p => (u :: p.1, p.2))
               else (parseStringAux f r3).map (fun p => (u :: p.1, p.2)))
          | _ => none
        else
          match decodeEsc e with
          | some d => (parseStringAux f r2).map (fun p => (d :: p.1, p.2))
          | none => none
    else if c < 32 then none
    else (parseStringAux f rest).map (fun p => (c :: p.1, p.2))

def isDigit (c : Nat) : Bool := 48 ≤ c && c ≤ 57

/-- Longest digit run at the head of the input (`NUMBER_RE`). -/
def spanDigits : List Nat → (List Nat × List Nat)
  | [] => ([], [])
  | c :: r =>
    if isDigit c then
      let p := spanDigits r
      (c :: p.1, p.2)
    else ([], c :: r)

/-- Parse a JSON integer (optional `-` sign, digit run). -/
def parseNumber (input : List Nat) : Option (Int × List Nat) :=
  match input with
  | [] => none
  | c :: r =>
    if c = 45 then
      match spanDigits r with
      | ([], _) => none
      | (ds, rest) => some (-(digitsVal ds : Int), rest)
    else
      match spanDigits (c :: r) with
      | ([], _) => none
      | (ds, rest) => some ((digitsVal ds : Int), rest)

mutual

/-- Parse one JSON value (fuelled recursion; `jsonLoads` supplies
`input.length + 1` fuel, which `parse_dumpVal` below shows suffices). -/
def parseValue : Nat → List Nat → Option (PyVal × List Nat)
  | 0, _ => none
  | f + 1, input =>
    match input with
    | [] => none
    | c :: r =>
      if c = 34 then (parseStringAux (r.length + 1) r).map (fun p => (.str p.1, p.2))
      else if c = 123 then
        match r with
        | 125 :: rest => some (.obj [], rest)
        | _ => (parseMembers f r []).map (fun p => (.obj (dictOfPairs p.1), p.2))
      else if c = 45 ∨ isDigit c then (parseNumber (c :: r)).map (fun p => (.int p.1, p.2))
      else none
  termination_by structural f _ => f

/-- Parse the members of a non-empty object after the `{`; the collected
pairs become a dict via `dictOfPairs` (last duplicate wins, as for
Python's `dict(pairs)`). -/
def parseMembers : Nat → List Nat → List (Str × PyVal) → Option (List (Str × PyVal) × List Nat)
  | 0, _, _ => none
  | f + 1, input, acc =>
    match input with
    | 34 :: r =>
      (match parseStringAux (r.length + 1) r with
       | none => none
       | some (k, r1) =>
         match r1 with
         | 58 :: r2 =>
           (match parseValue f r2 with
            | none => none
            | some (v, r3) =>
              match r3 with
              | 44 :: r4 => parseMembers f r4 (acc ++ [(k, v)])
              | 125 :: r4 => some (acc ++ [(k, v)], r4)
              | _ => none)
         | _ => none)
    | _ => none
  termination_by structural f _ _ => f

end

/-- `json.loads` on a full document: parse one value, demand no trailing
input. -/
def jsonLoads (bs : List Nat) : Option PyVal :=
  match parseValue (bs.length + 1) bs with
  | some (v, []) => some v
  | _ => none

/-! ## Round trip: the parser inverts the printer -/

theorem parse_escBody : ∀ (s : Str), validStr s = true →
    ∀ f rest, s.length + 1 ≤ f →
      parseStringAux f (escBody s ++ 34 :: rest) = some (s, rest) := by
  intro s
  induction s with
  | nil =>
    intro _ f rest hf
    obtain ⟨f', rfl⟩ : ∃ f', f = f' + 1 := ⟨f - 1, by omega⟩
    rw [escBody, List.nil_append]
    simp [parseStringAux]
  | cons c cs ih =>
    intro hv f rest hf
    obtain ⟨f', rfl⟩ : ∃ f', f = f' + 1 := ⟨f - 1, by omega⟩
    have hvc : validCp c = true := by
      simp [validStr, List.all_cons] at hv
      exact hv.1
    have hvcs : validStr cs = true := by
      simp [validStr, List.all_cons] at hv
      simpa [validStr] using hv.2
    have hf' : cs.length + 1 ≤ f' := by
      simp [List.length_cons] at hf
      omega
    have IH := ih hvcs f' rest hf'
    rw [escBody, List.append_assoc]
    set R := escBody cs ++ 34 :: rest with hR
    rw [escChar]
    by_cases h34 : c = 34
    · subst h34
      rw [if_pos rfl, List.cons_append, List.cons_append, List.nil_append]
      simp [parseStringAux, decodeEsc, IH]
    · rw [if_neg h34]
      by_cases h92 : c = 92
      · subst h92
        rw [if_pos rfl, List.cons_append, List.cons_append, List.nil_append]
        simp [parseStringAux, decodeEsc, IH]
      · rw [if_neg h92]
        by_cases h8 : c = 8
        · subst h8
          rw [if_pos rfl, List.cons_append, List.cons_append, List.nil_append]
          simp [parseStringAux, decodeEsc, IH]
        · rw [if_neg h8]
          by_cases h9 : c = 9
          · subst h9
            rw [if_pos rfl, List.cons_append, List.cons_append, List.nil_append]
            simp [parseStringAux, decodeEsc, IH]
          · rw [if_neg h9]
            by_cases h10 : c = 10
            · subst h10
              rw [if_pos rfl, List.cons_append, List.cons_append, List.nil_append]
              simp [parseStringAux, decodeEsc, IH]
            · rw [if_neg h10]
              by_cases h12 : c = 12
              · subst h12
                rw [if_pos rfl, List.cons_append, List.cons_append, List.nil_append]
                simp [parseStringAux, decodeEsc, IH]
              · rw [if_neg h12]
                by_cases h13 : c = 13
                · subst h13
                  rw [if_pos rfl, List.cons_append, List.cons_append, List.nil_append]
                  simp [parseStringAux, decodeEsc, IH]
                · rw [if_neg h13]
                  by_cases hpr : 32 ≤ c ∧ c ≤ 126
                  · rw [if_pos hpr, List.cons_append, List.nil_append]
                    rw [parseStringAux.eq_def]
                    dsimp only
                    rw [if_neg h34, if_neg h92, if_neg (by omega : ¬ c < 32), IH]
                    rfl
                  · rw [if_neg hpr]
                    by_cases hbmp : c < 65536
                    · rw [if_pos hbmp]
                      have hsur : ¬(55296 ≤ c ∧ c ≤ 56319) := by
                        simp [validCp] at hvc
                        omega
                      rw [hex4, List.cons_append, List.cons_append, List.cons_append,
                        List.cons_append, List.cons_append, List.cons_append, List.nil_append,
                        parseStringAux]
                      rw [parseHex4_hex4 c hbmp]
                      simp [hsur, IH]
                    · rw [if_neg hbmp]
                      have hhi : c < 1114112 := by
                        simp [validCp] at hvc
                        omega
                      have hge : 65536 ≤ c := by omega
                      have hdivlt : (c - 65536) / 1024 < 1024 :=
                        Nat.div_lt_of_lt_mul (by omega)
                      have hmodlt : (c - 65536) % 1024 < 1024 := Nat.mod_lt _ (by omega)
                      set u1 := 55296 + (c - 65536) / 1024 with hu1
                      set u2 := 56320 + (c - 65536) % 1024 with hu2
                      clear_value u1 u2
                      have hu1lt : u1 < 65536 := by omega
                      have hu2lt : u2 < 65536 := by omega
                      have hu1sur : 55296 ≤ u1 ∧ u1 ≤ 56319 := by omega
                      have hu2sur : 56320 ≤ u2 ∧ u2 ≤ 57343 := by omega
                      have hval : 65536 + (u1 - 55296) * 1024 + (u2 - 56320) = c := by
                        rw [hu1, hu2]
                        have := Nat.div_add_mod (c - 65536) 1024
                        omega
                      obtain ⟨a1, a2, a3, a4, he1, hp1⟩ :
                          ∃ a1 a2 a3 a4, hex4 u1 = [a1, a2, a3, a4] ∧
                            parseHex4 a1 a2 a3 a4 = some u1 :=
                        ⟨_, _, _, _, rfl, parseHex4_hex4 u1 hu1lt⟩
                      obtain ⟨b1, b2, b3, b4, he2, hp2⟩ :
                          ∃ b1 b2 b3 b4, hex4 u2 = [b1, b2, b3, b4] ∧
                            parseHex4 b1 b2 b3 b4 = some u2 :=
                        ⟨_, _, _, _, rfl, parseHex4_hex4 u2 hu2lt⟩
                      rw [he1, he2]
                      simp only [List.cons_append, List.nil_append, List.append_assoc]
                      rw [parseStringAux]
                      rw [hp1]
                      simp only [hu1sur, and_self, if_true]
                      rw [if_neg (by decide : ¬ (92:Nat) = 34)]
                      rw [hp2]
                      simp only [hu2sur, and_self, if_true, IH, Option.map_some]
                      rw [hval]
                      rfl

/-- A list that does not start with a decimal digit (what follows a
printed number in a JSON document: nothing, `,`, or `}`). -/
def noDigitHead : List Nat → Bool
  | [] => true
  | c :: _ => !(isDigit c)

theorem escChar_length_pos (c : Nat) : 1 ≤ (escChar c).length := by
  rw [escChar]
  split_ifs <;> simp [hex4]

theorem escBody_length_ge (s : Str) : s.length ≤ (escBody s).length := by
  induction s with
  | nil => simp [escBody]
  | cons c cs ih =>
    rw [escBody, List.length_append, List.length_cons]
    have := escChar_length_pos c
    omega

theorem spanDigits_append (ds : List Nat) (rest : List Nat)
    (hds : ∀ d ∈ ds, isDigit d = true) (hrest : noDigitHead rest = true) :
    spanDigits (ds ++ rest) = (ds, rest) := by
  induction ds with
  | nil =>
    match rest with
    | [] => rfl
    | c :: r =>
      rw [noDigitHead] at hrest
      rw [List.nil_append, spanDigits]
      simp at hrest
      simp [hrest]
  | cons d ds ih =>
    have hd : isDigit d = true := hds d (by simp)
    rw [List.cons_append, spanDigits, if_pos hd,
      ih (fun x hx => hds x (by simp [hx]))]

theorem toDecimal_isDigit (n : Nat) : ∀ d ∈ toDecimal n, isDigit d = true := by
  intro d hd
  have := toDecimal_digits n d hd
  simp [isDigit]
  omega

theorem parseNumber_intRepr (n : Int) (rest : List Nat)
    (hrest : noDigitHead rest = true) :
    parseNumber (intRepr n ++ rest) = some (n, rest) := by
  rw [intRepr]
  by_cases hn : n < 0
  · rw [if_pos hn, List.cons_append, parseNumber, if_pos rfl,
      spanDigits_append _ _ (toDecimal_isDigit _) hrest]
    obtain ⟨d, ds, hds⟩ := List.exists_cons_of_ne_nil (toDecimal_ne_nil n.natAbs)
    rw [hds]
    have hval : digitsVal (d :: ds) = n.natAbs := by
      rw [← hds, digitsVal_toDecimal]
    dsimp only
    rw [hval]
    congr 2
    omega
  · rw [if_neg hn]
    obtain ⟨d, ds, hds⟩ := List.exists_cons_of_ne_nil (toDecimal_ne_nil n.toNat)
    have hd : isDigit d = true := by
      apply toDecimal_isDigit
      rw [hds]
      simp
    have hd45 : ¬ d = 45 := by
      simp [isDigit] at hd
      omega
    rw [hds, List.cons_append, parseNumber, if_neg hd45, ← List.cons_append, ← hds,
      spanDigits_append _ _ (toDecimal_isDigit _) hrest]
    rw [hds]
    have hval : digitsVal (d :: ds) = n.toNat := by
      rw [← hds, digitsVal_toDecimal]
    dsimp only
    rw [hval]
    congr 2
    omega

/-! ## Unique keys and `dict(pairs)` -/

theorem hasKey_eq_false_iff (k : Str) (l : List (Str × PyVal)) :
    hasKey k l = false ↔ ∀ p ∈ l, p.1 ≠ k := by
  induction l with
  | nil => simp [hasKey, lookupKey]
  | cons p rest ih =>
    obtain ⟨k', v⟩ := p
    rw [hasKey, lookupKey]
    by_cases h : k' = k
    · subst h
      simp
    · rw [if_neg h]
      rw [hasKey] at ih
      simp [ih, h]

theorem noDupKeys_iff (l : List (Str × PyVal)) :
    noDupKeys l = true ↔ l.Pairwise (fun a b => a.1 ≠ b.1) := by
  induction l with
  | nil => simp [noDupKeys]
  | cons p rest ih =>
    obtain ⟨k, v⟩ := p
    rw [noDupKeys, List.pairwise_cons]
    rw [Bool.and_eq_true, Bool.not_eq_true', ih, hasKey_eq_false_iff]
    constructor
    · rintro ⟨h1, h2⟩
      exact ⟨fun q hq => (h1 q hq).symm, h2⟩
    · rintro ⟨h1, h2⟩
      exact ⟨fun q hq => (h1 q hq).symm, h2⟩

theorem insertReplace_fresh (l : List (Str × PyVal)) (kv : Str × PyVal)
    (h : ∀ p ∈ l, p.1 ≠ kv.1) : insertReplace l kv = l ++ [kv] := by
  induction l with
  | nil => rfl
  | cons p rest ih =>
    rw [insertReplace, if_neg (h p (by simp)), ih (fun q hq => h q (by simp [hq]))]
    rfl

theorem dictOfPairs_nodup : ∀ (ps acc : List (Str × PyVal)),
    (acc ++ ps).Pairwise (fun a b => a.1 ≠ b.1) →
    ps.foldl insertReplace acc = acc ++ ps := by
  intro ps
  induction ps with
  | nil => intro acc _; simp
  | cons p rest ih =>
    intro acc hpw
    rw [List.foldl_cons]
    have hfresh : ∀ q ∈ acc, q.1 ≠ p.1 := by
      intro q hq
      have := (List.pairwise_append.mp hpw).2.2 q hq p (by simp)
      exact this
    rw [insertReplace_fresh acc p hfresh]
    rw [ih (acc ++ [p]) (by simpa using hpw)]
    simp

theorem dictOfPairs_eq (ps : List (Str × PyVal))
    (h : ps.Pairwise (fun a b => a.1 ≠ b.1)) : dictOfPairs ps = ps := by
  rw [dictOfPairs, dictOfPairs_nodup ps [] (by simpa using h)]
  rfl

theorem noDigitHead_dumpRest (l : List (Str × PyVal)) (rest : List Nat) :
    noDigitHead (dumpRest l ++ 125 :: rest) = true := by
  cases l with
  | nil => simp [dumpRest, noDigitHead, isDigit]
  | cons p l' =>
    obtain ⟨k, v⟩ := p
    simp [dumpRest, noDigitHead, isDigit]

theorem parse_escString_call (s : Str) (hs : validStr s = true) (tail : List Nat) :
    parseStringAux ((escBody s ++ 34 :: tail).length + 1) (escBody s ++ 34 :: tail) =
      some (s, tail) := by
  apply parse_escBody s hs
  have := escBody_length_ge s
  simp only [List.length_append, List.length_cons]
  omega

theorem parse_dump_both : ∀ n : Nat,
    (∀ v : PyVal, sizeOf v ≤ n → wfV v = true →
      ∀ f rest, (dumpVal v).length + 1 ≤ f → noDigitHead rest = true →
        parseValue f (dumpVal v ++ rest) = some (v, rest)) ∧
    (∀ (k : Str) (v : PyVal) (l : List (Str × PyVal)),
      sizeOf v + sizeOf l ≤ n → validStr k = true → wfV v = true → wfL l = true →
      ∀ f acc rest, (escString k ++ 58 :: dumpVal v ++ dumpRest l).length + 1 ≤ f →
        parseMembers f (escString k ++ 58 :: dumpVal v ++ dumpRest l ++ 125 :: rest) acc =
          some (acc ++ (k, v) :: l, rest)) := by
  intro n
  induction n using Nat.strong_induction_on with
  | _ n IH =>
    constructor
    · -- values
      intro v hsz hwf f rest hf hrest
      match v with
      | .str s =>
        obtain ⟨f1, rfl⟩ : ∃ f1, f = f1 + 1 := ⟨f - 1, by omega⟩
        rw [dumpVal] at hf ⊢
        rw [escString] at hf ⊢
        simp only [List.cons_append, List.append_assoc, List.singleton_append,
          List.nil_append]
        rw [parseValue.eq_def]
        dsimp only
        rw [if_pos rfl]
        have hwfs : validStr s = true := by
          rw [wfV] at hwf
          exact hwf
        rw [parse_escString_call s hwfs rest]
        rfl
      | .int m =>
        obtain ⟨f1, rfl⟩ : ∃ f1, f = f1 + 1 := ⟨f - 1, by omega⟩
        rw [dumpVal] at hf ⊢
        by_cases hm : m < 0
        · rw [intRepr, if_pos hm] at hf ⊢
          simp only [List.cons_append]
          rw [parseValue.eq_def]
          dsimp only
          rw [if_neg (by decide : ¬ (45:Nat) = 34), if_neg (by decide : ¬ (45:Nat) = 123),
            if_pos (Or.inl rfl)]
          have hnum := parseNumber_intRepr m rest hrest
          rw [intRepr, if_pos hm] at hnum
          rw [List.cons_append] at hnum
          rw [hnum]
          rfl
        · rw [intRepr, if_neg hm] at hf ⊢
          obtain ⟨d, ds, hds⟩ := List.exists_cons_of_ne_nil (toDecimal_ne_nil m.toNat)
          have hd : isDigit d = true := by
            apply toDecimal_isDigit
            rw [hds]
            simp
          have hdr : 48 ≤ d ∧ d ≤ 57 := by
            simp [isDigit] at hd
            omega
          rw [hds]
          simp only [List.cons_append]
          rw [parseValue.eq_def]
          dsimp only
          rw [if_neg (by omega : ¬ d = 34), if_neg (by omega : ¬ d = 123),
            if_pos (Or.inr hd)]
          have hnum := parseNumber_intRepr m rest hrest
          rw [intRepr, if_neg hm, hds, List.cons_append] at hnum
          rw [hnum]
          rfl
      | .obj [] =>
        obtain ⟨f1, rfl⟩ : ∃ f1, f = f1 + 1 := ⟨f - 1, by omega⟩
        rw [dumpVal]
        simp only [List.cons_append]
        rw [parseValue]
        rfl
      | .obj ((k0, v0) :: l') =>
        obtain ⟨f1, rfl⟩ : ∃ f1, f = f1 + 1 := ⟨f - 1, by omega⟩
        have hwf' := hwf
        rw [wfV, Bool.and_eq_true] at hwf'
        obtain ⟨hnd, hwl⟩ := hwf'
        rw [wfL, Bool.and_eq_true, Bool.and_eq_true] at hwl
        obtain ⟨⟨hk0, hv0⟩, hl'⟩ := hwl
        have hfold : sizeOf v0 + sizeOf l' + 3 ≤ sizeOf (PyVal.obj ((k0, v0) :: l')) := by
          simp_arith
        have hszm : sizeOf v0 + sizeOf l' < n := by omega
        have SL := (IH (sizeOf v0 + sizeOf l') hszm).2 k0 v0 l' (le_refl _) hk0 hv0 hl'
        have hfx : (escString k0 ++ 58 :: dumpVal v0 ++ dumpRest l').length + 1 ≤ f1 := by
          rw [dumpVal] at hf
          simp only [List.length_cons, List.length_append] at hf ⊢
          omega
        have SLi := SL f1 [] rest hfx
        rw [dumpVal]
        simp only [List.cons_append, List.append_assoc]
        rw [parseValue.eq_def]
        dsimp only
        rw [if_neg (by decide : ¬ (123:Nat) = 34), if_pos rfl]
        rw [escString] at SLi ⊢
        simp only [List.cons_append, List.append_assoc, List.singleton_append,
          List.nil_append] at SLi ⊢
        rw [SLi]
        have hpw : ((k0, v0) :: l').Pairwise (fun a b => a.1 ≠ b.1) :=
          (noDupKeys_iff _).mp hnd
        simp only [Option.map, List.nil_append]
        rw [dictOfPairs_eq _ hpw]
    · -- members
      intro k v l hsz hk hv hl f acc rest hf
      obtain ⟨g, rfl⟩ : ∃ g, f = g + 1 := ⟨f - 1, by omega⟩
      rw [escString]
      simp only [List.cons_append, List.append_assoc, List.singleton_append]
      rw [parseMembers]
      rw [parse_escString_call k hk]
      simp only [List.nil_append]
      have hv1 : 1 ≤ sizeOf v := by
        cases v <;> simp_arith
      have hl1 : 1 ≤ sizeOf l := by
        cases l <;> simp_arith
      have hsv : sizeOf v < n := by omega
      have hval := (IH (sizeOf v) hsv).1 v (le_refl _) hv g
        (dumpRest l ++ 125 :: rest)
        (by
          rw [escString] at hf
          simp only [List.length_append, List.length_cons] at hf ⊢
          omega)
        (noDigitHead_dumpRest l rest)
      rw [hval]
      dsimp only
      match l, hl with
      | [], _ =>
        rw [dumpRest, List.nil_append]
      | (k1, v1) :: l'', hl =>
        rw [wfL, Bool.and_eq_true, Bool.and_eq_true] at hl
        obtain ⟨⟨hk1, hvv1⟩, hl''⟩ := hl
        rw [dumpRest]
        simp only [List.cons_append, List.append_assoc, List.singleton_append,
          List.nil_append]
        have hfold : sizeOf v1 + sizeOf l'' + 2 ≤ sizeOf ((k1, v1) :: l'') := by
          simp_arith
        have hszm : sizeOf v1 + sizeOf l'' < n := by omega
        have SL := (IH (sizeOf v1 + sizeOf l'') hszm).2 k1 v1 l'' (le_refl _) hk1 hvv1 hl''
          g (acc ++ [(k, v)]) rest
          (by
            rw [escString] at hf
            simp only [List.length_append, List.length_cons, dumpRest] at hf ⊢
            omega)
        rw [escString] at SL
        simp only [List.cons_append, List.append_assoc, List.singleton_append,
          List.nil_append] at SL
        rw [escString]
        simp only [List.cons_append, List.append_assoc, List.singleton_append,
          List.nil_append]
        rw [SL]

theorem jsonLoads_dumpVal (v : PyVal) (h : wfV v = true) :
    jsonLoads (dumpVal v) = some v := by
  rw [jsonLoads]
  have h1 := (parse_dump_both (sizeOf v)).1 v (le_refl _) h ((dumpVal v).length + 1) []
    (by omega) rfl
  rw [List.append_nil] at h1
  rw [h1]

/-! ## Python equality (`==`) on values

Python compares dicts by key set and per-key values, ignoring order;
strings and ints structurally.  `pyEqV` is that equality (for the
unique-key dicts that actually occur). -/

mutual

/-- Python `==` on values: dict comparison ignores insertion order. -/
def pyEqV : PyVal → PyVal → Bool
  | .str a, .str b => a == b
  | .int a, .int b => a == b
  | .obj a, .obj b => (a.length == b.length) && pyEqEntries a b
  | _, _ => false
  termination_by structural v => v

def pyEqEntries : List (Str × PyVal) → List (Str × PyVal) → Bool
  | [], _ => true
  | (k, v) :: rest, b =>
    (match lookupKey k b with
     | some w => pyEqV v w
     | none => false) && pyEqEntries rest b
  termination_by structural l _ => l

end

theorem canonEntries_eq_map (l : List (Str × PyVal)) :
    canonEntries l = l.map (fun p => (p.1, canonSort p.2)) := by
  induction l with
  | nil => rfl
  | cons p rest ih =>
    obtain ⟨k, v⟩ := p
    rw [canonEntries, ih]
    rfl

theorem sortEntries_perm (l : List (Str × PyVal)) : List.Perm (sortEntries l) l :=
  List.perm_insertionSort _ l

theorem wfL_iff_forall (l : List (Str × PyVal)) :
    wfL l = true ↔ ∀ p ∈ l, validStr p.1 = true ∧ wfV p.2 = true := by
  induction l with
  | nil => simp [wfL]
  | cons p rest ih =>
    obtain ⟨k, v⟩ := p
    rw [wfL, Bool.and_eq_true, Bool.and_eq_true, ih]
    constructor
    · rintro ⟨⟨h1, h2⟩, h3⟩
      intro q hq
      rcases List.mem_cons.mp hq with h | h
      · subst h
        exact ⟨h1, h2⟩
      · exact h3 q h
    · intro h
      exact ⟨⟨(h (k, v) (by simp)).1, (h (k, v) (by simp)).2⟩,
        fun q hq => h q (by simp [hq])⟩

theorem sizeOf_snd_lt_obj (l : List (Str × PyVal)) (p : Str × PyVal) (h : p ∈ l) :
    sizeOf p.2 < sizeOf (PyVal.obj l) := by
  have h1 := List.sizeOf_lt_of_mem h
  obtain ⟨a, b⟩ := p
  have h2 : sizeOf (a, b) = 1 + sizeOf a + sizeOf b := by simp_arith
  have h3 : sizeOf (PyVal.obj l) = 1 + sizeOf l := by simp_arith
  simp only at h1 ⊢
  omega

theorem wfV_canonSort : ∀ (n : Nat) (v : PyVal), sizeOf v ≤ n → wfV v = true →
    wfV (canonSort v) = true := by
  intro n
  induction n using Nat.strong_induction_on with
  | _ n IH =>
    intro v hsz hwf
    match v with
    | .str s => exact hwf
    | .int m => rfl
    | .obj l =>
      rw [wfV, Bool.and_eq_true] at hwf
      obtain ⟨hnd, hwl⟩ := hwf
      rw [canonSort, wfV, Bool.and_eq_true]
      constructor
      · rw [noDupKeys_iff]
        have hperm : List.Perm (sortEntries (canonEntries l)) (canonEntries l) :=
          sortEntries_perm _
        rw [hperm.pairwise_iff (fun h => h.symm)]
        rw [canonEntries_eq_map, List.pairwise_map]
        have := (noDupKeys_iff l).mp hnd
        exact this
      · rw [wfL_iff_forall]
        intro p hp
        have hp2 : p ∈ canonEntries l := (sortEntries_perm _).mem_iff.mp hp
        rw [canonEntries_eq_map, List.mem_map] at hp2
        obtain ⟨q, hq, rfl⟩ := hp2
        have hq' := (wfL_iff_forall l).mp hwl q hq
        refine ⟨hq'.1, ?_⟩
        have hlt : sizeOf q.2 < sizeOf (PyVal.obj l) := sizeOf_snd_lt_obj l q hq
        exact IH (sizeOf q.2) (by omega) q.2 (le_refl _) hq'.2

theorem lookupKey_of_mem_nodup (l : List (Str × PyVal)) (k : Str) (v : PyVal)
    (hnd : l.Pairwise (fun a b => a.1 ≠ b.1)) (hm : (k, v) ∈ l) :
    lookupKey k l = some v := by
  induction l with
  | nil => simp at hm
  | cons p rest ih =>
    obtain ⟨k', v'⟩ := p
    rw [List.pairwise_cons] at hnd
    rcases List.mem_cons.mp hm with h | h
    · rw [Prod.mk.injEq] at h
      obtain ⟨h1, h2⟩ := h
      rw [lookupKey, if_pos h1.symm]
      exact congrArg some h2.symm
    · have hne : k' ≠ k := by
        intro he
        subst he
        exact hnd.1 (k', v) h rfl
      rw [lookupKey, if_neg hne]
      exact ih hnd.2 h

theorem pyEqEntries_of_forall (b : List (Str × PyVal)) :
    ∀ (m : List (Str × PyVal)),
      (∀ p ∈ m, ∃ w, lookupKey p.1 b = some w ∧ pyEqV p.2 w = true) →
      pyEqEntries m b = true := by
  intro m
  induction m with
  | nil => intro _; rfl
  | cons p rest ih =>
    intro h
    obtain ⟨k, v⟩ := p
    obtain ⟨w, hw, he⟩ := h (k, v) (by simp)
    rw [pyEqEntries, hw, Bool.and_eq_true]
    exact ⟨he, ih fun q hq => h q (by simp [hq])⟩

theorem pyEqV_canonSort : ∀ (n : Nat) (v : PyVal), sizeOf v ≤ n → wfV v = true →
    pyEqV (canonSort v) v = true := by
  intro n
  induction n using Nat.strong_induction_on with
  | _ n IH =>
    intro v hsz hwf
    match v with
    | .str s => simp [canonSort, pyEqV]
    | .int m => simp [canonSort, pyEqV]
    | .obj l =>
      rw [wfV, Bool.and_eq_true] at hwf
      obtain ⟨hnd, hwl⟩ := hwf
      rw [canonSort, pyEqV, Bool.and_eq_true]
      constructor
      · have h1 : (sortEntries (canonEntries l)).length = (canonEntries l).length :=
          (sortEntries_perm _).length_eq
        have h2 : (canonEntries l).length = l.length := by
          rw [canonEntries_eq_map, List.length_map]
        simp [h1, h2]
      · apply pyEqEntries_of_forall
        intro p hp
        have hp2 : p ∈ canonEntries l := (sortEntries_perm _).mem_iff.mp hp
        rw [canonEntries_eq_map, List.mem_map] at hp2
        obtain ⟨q, hq, rfl⟩ := hp2
        obtain ⟨k0, v0⟩ := q
        refine ⟨v0, ?_, ?_⟩
        · exact lookupKey_of_mem_nodup l k0 v0 ((noDupKeys_iff l).mp hnd) hq
        · have hlt : sizeOf v0 < sizeOf (PyVal.obj l) :=
            sizeOf_snd_lt_obj l (k0, v0) hq
          have hwq := (wfL_iff_forall l).mp hwl (k0, v0) hq
          exact IH (sizeOf v0) (by omega) v0 (le_refl _) hwq.2

/-- The two parts packaged: the parsed dump of a well-formed value is its
canonical (key-sorted) form, which is Python-equal to the original. -/
theorem jsonLoads_jsonDumps (v : PyVal) (h : wfV v = true) :
    jsonLoads (jsonDumps v) = some (canonSort v) ∧
      pyEqV (canonSort v) v = true := by
  constructor
  · rw [jsonDumps]
    exact jsonLoads_dumpVal (canonSort v) (wfV_canonSort (sizeOf v) v (le_refl _) h)
  · exact pyEqV_canonSort (sizeOf v) v (le_refl _) h

/-! ## The header codec

`Asar.compress` (asartool.py lines 97-109) serializes the tree with
`json.dumps(header, sort_keys=True, separators=(',', ':'))`, emits the
16-byte `<4I` record and the NUL-padded tree JSON.  `Asar.open`
(lines 26-41) reads 16 bytes, unpacks four little-endian u32 fields,
reads `header_string_size` bytes and parses them with `json.loads`. -/

/-- Little-endian 4-byte encoding of a u32 (`struct.pack('<I', n)`;
the source is in range whenever the packed values are below 2^32). -/
def encodeU32 (n : Nat) : List Nat :=
  [n % 256, n / 256 % 256, n / 65536 % 256, n / 16777216 % 256]

def header_string_size (t : PyVal) : Nat := (jsonDumps t).length

/-- `aligned_size = round_up(header_string_size, data_size)` with
`data_size = 4` (lines 100-101). -/
def aligned_size (t : PyVal) : Nat := roundUpN (header_string_size t) 4

def header_size (t : PyVal) : Nat := aligned_size t + 8

def header_object_size (t : PyVal) : Nat := aligned_size t + 4

/-- Lines 104-105: `diff = aligned_size - header_string_size;
header_json = header_json + b'\0' * diff if diff else header_json`. -/
def paddedHeaderJson (t : PyVal) : List Nat :=
  let diff := aligned_size t - header_string_size t
  if diff ≠ 0 then jsonDumps t ++ List.replicate diff 0 else jsonDumps t

/-- The bytes `Asar.compress` writes before the payload (lines 107-109):
the `<4I` record `(data_size, header_size, header_object_size,
header_string_size)` followed by the padded tree JSON. -/
def compressHeaderBytes (t : PyVal) : List Nat :=
  encodeU32 4 ++ encodeU32 (header_size t) ++ encodeU32 (header_object_size t) ++
    encodeU32 (header_string_size t) ++ paddedHeaderJson t

/-- `Asar.open` on a byte stream: read 16 bytes (fail via the catch-all
`except` if fewer), take `header_string_size` from the fourth field, read
that many bytes, `json.loads` them; `base_offset =
round_up(16 + header_string_size, 4)`. -/
def openHeader (bs : List Nat) : Option (PyVal × Nat) :=
  match bs with
  | _ :: _ :: _ :: _ :: _ :: _ :: _ :: _ :: _ :: _ :: _ :: _ ::
      h0 :: h1 :: h2 :: h3 :: rest =>
    let hss := h0 + 256 * h1 + 65536 * h2 + 16777216 * h3
    (match jsonLoads (rest.take hss) with
     | some tree => some (tree, roundUpN (16 + hss) 4)
     | none => none)
  | _ => none

theorem paddedHeaderJson_eq (t : PyVal) :
    paddedHeaderJson t =
      jsonDumps t ++ List.replicate (aligned_size t - header_string_size t) 0 := by
  rw [paddedHeaderJson]
  by_cases h : aligned_size t - header_string_size t ≠ 0
  · simp [h]
  · simp at h
    simp [h]

theorem aligned_size_ge (t : PyVal) : header_string_size t ≤ aligned_size t := by
  rw [aligned_size, roundUpN_four]
  exact specAlign4_ge _

theorem paddedHeaderJson_length (t : PyVal) :
    (paddedHeaderJson t).length = aligned_size t := by
  rw [paddedHeaderJson_eq, List.length_append, List.length_replicate,
    header_string_size]
  have := aligned_size_ge t
  rw [header_string_size] at this
  omega

theorem openHeader_compress (t : PyVal) (hwf : wfV t = true)
    (hsize : header_string_size t + 12 < 4294967296) :
    ∀ payload, openHeader (compressHeaderBytes t ++ payload) =
      some (canonSort t, roundUpN (16 + header_string_size t) 4) := by
  intro payload
  rw [compressHeaderBytes]
  simp only [encodeU32, List.cons_append, List.nil_append, List.append_assoc]
  rw [openHeader]
  have hh : header_string_size t % 256 + 256 * (header_string_size t / 256 % 256) +
      65536 * (header_string_size t / 65536 % 256) +
      16777216 * (header_string_size t / 16777216 % 256) = header_string_size t := by
    omega
  rw [hh]
  rw [paddedHeaderJson_eq, List.append_assoc]
  have htake : (jsonDumps t ++
      (List.replicate (aligned_size t - header_string_size t) 0 ++ payload)).take
        (header_string_size t) = jsonDumps t := by
    rw [header_string_size, List.take_left]
  rw [htake]
  rw [(jsonLoads_jsonDumps t hwf).1]

/-! ## Claim theorems: header codec -/

def kFiles : Str := [102, 105, 108, 101, 115]

def kSize : Str := [115, 105, 122, 101]

def kOffset : Str := [111, 102, 102, 115, 101, 116]

def kLink : Str := [108, 105, 110, 107]

/-- C1.  Header round trip: decoding the bytes `Asar.compress` emits (the
16-byte record plus the padded tree JSON, followed by any payload) yields
the tree back — exactly the original under Python dict equality `pyEqV`
(structurally, it is the key-sorted canonical form `canonSort`) — and the
base offset `round_up(16 + headerStringSize, 4) = align4(16 +
headerStringSize)`.  The size hypothesis is the `struct.pack('<4I', ...)`
range requirement. -/
theorem claim_C1_header_round_trip (t : PyVal) (hwf : wfV t = true)
    (hsize : header_string_size t + 12 < 4294967296) :
    (∀ payload, openHeader (compressHeaderBytes t ++ payload) =
      some (canonSort t, roundUpN (16 + header_string_size t) 4)) ∧
    pyEqV (canonSort t) t = true ∧
    roundUpN (16 + header_string_size t) 4 = specAlign4 (16 + header_string_size t) := by
  refine ⟨openHeader_compress t hwf hsize, (jsonLoads_jsonDumps t hwf).2, ?_⟩
  exact roundUpN_four _

/-- Witness for C1 at the empty directory tree `{'files': {}}`. -/
theorem claim_C1_header_round_trip_witness :
    (wfV (PyVal.obj [(kFiles, PyVal.obj [])]) = true ∧
      header_string_size (PyVal.obj [(kFiles, PyVal.obj [])]) + 12 < 4294967296) ∧
    openHeader (compressHeaderBytes (PyVal.obj [(kFiles, PyVal.obj [])]) ++ []) =
      some (canonSort (PyVal.obj [(kFiles, PyVal.obj [])]),
        roundUpN (16 + header_string_size (PyVal.obj [(kFiles, PyVal.obj [])])) 4) :=
  ⟨⟨by decide, by decide⟩,
    (claim_C1_header_round_trip (PyVal.obj [(kFiles, PyVal.obj [])])
      (by decide) (by decide)).1 []⟩

/-- C3.  Header field formulas (asartool.py lines 97-109): the emitted
record has `dataSize = 4`, `headerSize = align4(hss) + 8`,
`headerObjectSize = align4(hss) + 4`, `headerStringSize` the exact
unpadded length of the tree description, and the tree description padded
with NUL to `align4(hss)`, where `align4(n) = (n+3) & ~3`. -/
theorem claim_C3_header_field_formulas (t : PyVal) :
    (compressHeaderBytes t).take 4 = [4, 0, 0, 0] ∧
    header_size t = specAlign4 (header_string_size t) + 8 ∧
    header_object_size t = specAlign4 (header_string_size t) + 4 ∧
    header_string_size t = (jsonDumps t).length ∧
    paddedHeaderJson t = jsonDumps t ++
      List.replicate (specAlign4 (header_string_size t) - header_string_size t) 0 ∧
    (paddedHeaderJson t).length = specAlign4 (header_string_size t) ∧
    compressHeaderBytes t = encodeU32 4 ++ encodeU32 (header_size t) ++
      encodeU32 (header_object_size t) ++ encodeU32 (header_string_size t) ++
      paddedHeaderJson t := by
  have ha : aligned_size t = specAlign4 (header_string_size t) := roundUpN_four _
  refine ⟨?_, ?_, ?_, rfl, ?_, ?_, rfl⟩
  · rw [compressHeaderBytes]
    rfl
  · rw [header_size, ha]
  · rw [header_object_size, ha]
  · rw [paddedHeaderJson_eq, ha]
  · rw [paddedHeaderJson_length, ha]

/-- C4 counterexample: `json.dumps(..., sort_keys=True)` renders keys in
sorted order, not insertion order.  Inserting `"b"` before `"a"` still
prints `"a"` (97) first, and the serialized form is identical to the one
with the opposite insertion order. -/
theorem claim_C4_cex :
    jsonDumps (PyVal.obj [([98], PyVal.int 1), ([97], PyVal.int 2)]) =
      [123, 34, 97, 34, 58, 50, 44, 34, 98, 34, 58, 49, 125] ∧
    jsonDumps (PyVal.obj [([98], PyVal.int 1), ([97], PyVal.int 2)]) =
      jsonDumps (PyVal.obj [([97], PyVal.int 2), ([98], PyVal.int 1)]) := by
  constructor <;> decide

theorem lexLe_total : ∀ a b : Str, lexLe a b = true ∨ lexLe b a = true := by
  intro a
  induction a with
  | nil => intro b; left; rfl
  | cons x xs ih =>
    intro b
    match b with
    | [] => right; rfl
    | y :: ys =>
      rw [lexLe, lexLe]
      by_cases hxy : x < y
      · left
        rw [if_pos hxy]
      · by_cases heq : x = y
        · subst heq
          rw [if_neg hxy, if_pos rfl, if_neg hxy, if_pos rfl]
          exact ih ys
        · right
          have : y < x := by omega
          rw [if_pos this]

theorem lexLe_trans : ∀ a b c : Str, lexLe a b = true → lexLe b c = true →
    lexLe a c = true := by
  intro a
  induction a with
  | nil => intro b c _ _; rfl
  | cons x xs ih =>
    intro b c hab hbc
    match b, c with
    | [], _ => exact absurd hab (by rw [lexLe]; simp)
    | _ :: _, [] => exact absurd hbc (by rw [lexLe]; simp)
    | y :: ys, z :: zs =>
      rw [lexLe] at hab hbc ⊢
      by_cases hxy : x < y
      · by_cases hyz : y < z
        · rw [if_pos (by omega : x < z)]
        · by_cases heyz : y = z
          · subst heyz
            rw [if_pos hxy]
          · rw [if_neg hyz, if_neg heyz] at hbc
            exact absurd hbc (by simp)
      · by_cases hexy : x = y
        · subst hexy
          by_cases hyz : x < z
          · rw [if_pos hyz]
          · by_cases heyz : x = z
            · subst heyz
              rw [if_neg hyz, if_pos rfl] at hbc ⊢
              rw [if_neg hyz, if_pos rfl] at hab
              exact ih ys zs hab hbc
            · rw [if_neg hyz, if_neg heyz] at hbc
              exact absurd hbc (by simp)
        · rw [if_neg hxy, if_neg hexy] at hab
          exact absurd hab (by simp)

instance : IsTotal (Str × PyVal) entryLe :=
  ⟨fun a b => lexLe_total a.1 b.1⟩

instance : IsTrans (Str × PyVal) entryLe :=
  ⟨fun a b c => lexLe_trans a.1 b.1 c.1⟩

/-- C4 amended: the serialized tree description renders each directory's
entries in ascending key order (code-point lexicographic, like Python
`sorted`), independent of insertion order: the printed entry list is a
`lexLe`-sorted permutation of the (recursively canonicalized) entries. -/
theorem claim_C4_amended (l : List (Str × PyVal)) :
    jsonDumps (PyVal.obj l) = dumpVal (PyVal.obj (sortEntries (canonEntries l))) ∧
    List.Sorted entryLe (sortEntries (canonEntries l)) ∧
    List.Perm (sortEntries (canonEntries l))
      (l.map (fun p => (p.1, canonSort p.2))) := by
  refine ⟨rfl, ?_, ?_⟩
  · exact List.sorted_insertionSort entryLe (canonEntries l)
  · rw [← canonEntries_eq_map]
    exact sortEntries_perm _

/-! ## The tree builder (`Asar.compress` / `_path_to_dict`, lines 44-95)

The scanned filesystem is modelled by `Entry`.  `os.path.isdir` follows
symlinks, so a symlink whose resolved target is a directory is a
`linkDir` (with the target directory's listing); `linkOther` is a symlink
to a non-directory (or broken).  A `denied` directory models `os.scandir`
raising `PermissionError`, which line 81-82 turns into the partial result
`{'files': {}}`.

Parameters: `rp` models `os.path.realpath` as called by line 71 — it
resolves its argument string against the *process working directory* (the
source passes `f.name`, the bare entry name); `ex` models
`should_exclude` applied to the entry's full path; `readF` models reading
a file's bytes (`None` = the `open`/`read` raised). -/

inductive Entry where
  | dir (name : Str) (denied : Bool) (entries : List Entry)
  | file (name : Str) (size : Nat)
  | linkDir (name : Str) (denied : Bool) (entries : List Entry)
  | linkOther (name : Str)

def entryName : Entry → Str
  | .dir n _ _ => n
  | .file n _ => n
  | .linkDir n _ _ => n
  | .linkOther n => n

/-- `os.path.isdir(f.path)` — follows symlinks. -/
def isdirE : Entry → Bool
  | .dir _ _ _ => true
  | .linkDir _ _ _ => true
  | _ => false

/-- `f.is_symlink()`. -/
def islinkE : Entry → Bool
  | .linkDir _ _ _ => true
  | .linkOther _ => true
  | _ => false

/-- The listing `os.scandir` yields for a directory-like entry (for a
symlink to a directory, the target's listing). -/
def childrenE : Entry → List Entry
  | .dir _ _ cs => cs
  | .linkDir _ _ cs => cs
  | _ => []

def deniedE : Entry → Bool
  | .dir _ d _ => d
  | .linkDir _ d _ => d
  | _ => false

/-- `f.stat().st_size`. -/
def sizeE : Entry → Nat
  | .file _ sz => sz
  | _ => 0

/-- Builder state: the running `offset` and the `paths` list. -/
abbrev BSt := Nat × List Str

mutual

/-- The body of one loop iteration of `_path_to_dict` for a non-excluded
entry `f` (lines 67-80), given `fpath = f.path`: the `os.path.isdir`
branch (directory or symlink-to-directory; the nested `_path_to_dict`
call, with its `result = \x7b'files': \x7b}}` and `PermissionError`
handling, is the `if d` here), then `f.is_symlink()` producing
`\x7b'link': os.path.realpath(f.name)}` — note the *bare name* `f.name`
— else a regular file: record `size` and `offset` (the running offset,
stringified), append `f.path` to `paths`, advance the offset. -/
def buildEntry (rp : Str → Str) (ex : Str → Bool) (fpath : Str) :
    Entry → BSt → PyVal × BSt
  | .dir _ d cs, st =>
    if d then (PyVal.obj [(kFiles, PyVal.obj [])], st)
    else
      let r := buildList rp ex fpath cs st []
      (PyVal.obj [(kFiles, PyVal.obj r.1)], r.2)
  | .linkDir _ d cs, st =>
    if d then (PyVal.obj [(kFiles, PyVal.obj [])], st)
    else
      let r := buildList rp ex fpath cs st []
      (PyVal.obj [(kFiles, PyVal.obj r.1)], r.2)
  | .linkOther n, st => (PyVal.obj [(kLink, PyVal.str (rp n))], st)
  | .file _ sz, st =>
    (PyVal.obj [(kSize, PyVal.int sz), (kOffset, PyVal.str (toDecimal st.1))],
      (st.1 + sz, st.2 ++ [fpath]))
  termination_by structural e => e

/-- The `for f in os.scandir(dir_path)` loop, accumulating
`result['files']` by dict assignment (`insertReplace`) and threading the
`offset`/`paths` state; excluded entries are skipped. -/
def buildList (rp : Str → Str) (ex : Str → Bool) (dirPath : Str) :
    List Entry → BSt → List (Str × PyVal) → List (Str × PyVal) × BSt
  | [], st, acc => (acc, st)
  | e :: rest, st, acc =>
    let fpath := dirPath ++ 47 :: entryName e
    if ex fpath then buildList rp ex dirPath rest st acc
    else
      let r := buildEntry rp ex fpath e st
      buildList rp ex dirPath rest r.2 (insertReplace acc (entryName e, r.1))
  termination_by structural es => es

end

/-- `_path_to_dict(dir_path)`: `result = {'files': {}}`; scan the listing
unless `PermissionError` (`denied`), in which case the partial result is
returned with the state untouched. -/
def pathToDict (rp : Str → Str) (ex : Str → Bool) (dirPath : Str) (denied : Bool)
    (entries : List Entry) (st : BSt) : PyVal × BSt :=
  if denied then (PyVal.obj [(kFiles, PyVal.obj [])], st)
  else
    let r := buildList rp ex dirPath entries st []
    (PyVal.obj [(kFiles, PyVal.obj r.1)], r.2)

/-- The per-entry dispatch is exactly the source's
`if should_exclude / elif os.path.isdir / elif f.is_symlink / else`
chain: `isdirE` (which follows symlinks) is consulted first, and only
non-directories reach the symlink check. -/
theorem buildEntry_eq (rp : Str → Str) (ex : Str → Bool) (fpath : Str)
    (e : Entry) (st : BSt) :
    buildEntry rp ex fpath e st =
      (if isdirE e then
        (if deniedE e then (PyVal.obj [(kFiles, PyVal.obj [])], st)
         else
           let r := buildList rp ex fpath (childrenE e) st []
           (PyVal.obj [(kFiles, PyVal.obj r.1)], r.2))
       else if islinkE e then
         (PyVal.obj [(kLink, PyVal.str (rp (entryName e)))], st)
       else
         (PyVal.obj [(kSize, PyVal.int (sizeE e)),
            (kOffset, PyVal.str (toDecimal st.1))],
           (st.1 + sizeE e, st.2 ++ [fpath]))) := by
  cases e <;> rfl

/-- `_paths_to_bytes(file_paths)` (lines 86-95): read each path's bytes
into one buffer; a read failure is printed and the file's bytes are
simply omitted — the function has no error channel at all. -/
def pathsToBytes (readF : Str → Option (List Nat)) : List Str → List Nat
  | [] => []
  | p :: rest =>
    (match readF p with
     | some bs => bs
     | none => []) ++ pathsToBytes readF rest

/-- The whole of `Asar.compress`: build the tree from the root listing,
emit header bytes, then the payload. -/
def compressBytes (rp : Str → Str) (ex : Str → Bool) (readF : Str → Option (List Nat))
    (rootPath : Str) (denied : Bool) (entries : List Entry) : List Nat × PyVal × Nat :=
  let r := pathToDict rp ex rootPath denied entries (0, [])
  (compressHeaderBytes r.1 ++ pathsToBytes readF r.2.2, r.1,
    roundUpN (16 + header_string_size r.1) 4)

/-! ## File sizes in traversal order, and the offset/size observation -/

mutual

/-- The sizes a single non-excluded entry contributes, in traversal
order (a denied directory's listing contributes nothing). -/
def sizesE (ex : Str → Bool) (fpath : Str) : Entry → List Nat
  | .dir _ d cs => if d then [] else sizesList ex fpath cs
  | .linkDir _ d cs => if d then [] else sizesList ex fpath cs
  | .linkOther _ => []
  | .file _ sz => [sz]
  termination_by structural e => e

/-- The sizes of the regular files a listing contributes, in the
traversal order that assigns their offsets (skipping excluded
entries). -/
def sizesList (ex : Str → Bool) (dirPath : Str) : List Entry → List Nat
  | [] => []
  | e :: rest =>
    (if ex (dirPath ++ 47 :: entryName e) then []
     else sizesE ex (dirPath ++ 47 :: entryName e) e) ++ sizesList ex dirPath rest
  termination_by structural es => es

end

/-- The sizes a whole directory contributes. -/
def sizesDir (ex : Str → Bool) (dirPath : Str) (denied : Bool)
    (entries : List Entry) : List Nat :=
  if denied then [] else sizesList ex dirPath entries

/-- `(offset, size)` pairs for a size sequence laid out contiguously from
`off`. -/
def offsetsFromSizes (off : Nat) : List Nat → List (Nat × Nat)
  | [] => []
  | s :: ss => (off, s) :: offsetsFromSizes (off + s) ss

mutual

/-- The `(offset, size)` pairs of the `File` nodes of a built tree, in
document (= traversal) order: a node with an `'offset'` string and a
`'size'` int is a file node; everything else is searched recursively. -/
def fileNodesV : PyVal → List (Nat × Nat)
  | .str _ => []
  | .int _ => []
  | .obj l =>
    match lookupKey kOffset l, lookupKey kSize l with
    | some (.str ds), some (.int sz) => [(digitsVal ds, sz.toNat)]
    | _, _ => fileNodesL l
  termination_by structural v => v

def fileNodesL : List (Str × PyVal) → List (Nat × Nat)
  | [] => []
  | (_, v) :: rest => fileNodesV v ++ fileNodesL rest
  termination_by structural l => l

end

/-- Does some entry of the listing have name `k`? -/
def hasName (k : Str) : List Entry → Bool
  | [] => false
  | e :: rest => if entryName e = k then true else hasName k rest

/-- The names in one directory listing are pairwise distinct (true of any
real `os.scandir` listing). -/
def nodupNames : List Entry → Bool
  | [] => true
  | e :: rest => ! hasName (entryName e) rest && nodupNames rest

mutual

/-- Recursive well-formedness: every directory listing in the tree has
pairwise-distinct names. -/
def wfE : Entry → Bool
  | .dir _ _ cs => nodupNames cs && wfList cs
  | .linkDir _ _ cs => nodupNames cs && wfList cs
  | .linkOther _ => true
  | .file _ _ => true
  termination_by structural e => e

def wfList : List Entry → Bool
  | [] => true
  | e :: rest => wfE e && wfList rest
  termination_by structural es => es

end

theorem buildList_nil (rp : Str → Str) (ex : Str → Bool) (dirPath : Str)
    (st : BSt) (acc : List (Str × PyVal)) :
    buildList rp ex dirPath [] st acc = (acc, st) := rfl

theorem buildList_cons_eq (rp : Str → Str) (ex : Str → Bool) (dirPath : Str)
    (e : Entry) (rest : List Entry) (st : BSt) (acc : List (Str × PyVal)) :
    buildList rp ex dirPath (e :: rest) st acc =
      (if ex (dirPath ++ 47 :: entryName e) then buildList rp ex dirPath rest st acc
       else buildList rp ex dirPath rest
         (buildEntry rp ex (dirPath ++ 47 :: entryName e) e st).2
         (insertReplace acc
           (entryName e, (buildEntry rp ex (dirPath ++ 47 :: entryName e) e st).1))) := rfl

theorem buildEntry_dir (rp : Str → Str) (ex : Str → Bool) (fpath : Str)
    (nm : Str) (d : Bool) (cs : List Entry) (st : BSt) :
    buildEntry rp ex fpath (.dir nm d cs) st =
      (if d then (PyVal.obj [(kFiles, PyVal.obj [])], st)
       else (PyVal.obj [(kFiles, PyVal.obj (buildList rp ex fpath cs st []).1)],
         (buildList rp ex fpath cs st []).2)) := rfl

theorem buildEntry_linkDir (rp : Str → Str) (ex : Str → Bool) (fpath : Str)
    (nm : Str) (d : Bool) (cs : List Entry) (st : BSt) :
    buildEntry rp ex fpath (.linkDir nm d cs) st =
      (if d then (PyVal.obj [(kFiles, PyVal.obj [])], st)
       else (PyVal.obj [(kFiles, PyVal.obj (buildList rp ex fpath cs st []).1)],
         (buildList rp ex fpath cs st []).2)) := rfl

theorem buildEntry_linkOther (rp : Str → Str) (ex : Str → Bool) (fpath : Str)
    (nm : Str) (st : BSt) :
    buildEntry rp ex fpath (.linkOther nm) st =
      (PyVal.obj [(kLink, PyVal.str (rp nm))], st) := rfl

theorem buildEntry_file (rp : Str → Str) (ex : Str → Bool) (fpath : Str)
    (nm : Str) (sz : Nat) (st : BSt) :
    buildEntry rp ex fpath (.file nm sz) st =
      (PyVal.obj [(kSize, PyVal.int sz), (kOffset, PyVal.str (toDecimal st.1))],
        (st.1 + sz, st.2 ++ [fpath])) := rfl

theorem sizesList_nil (ex : Str → Bool) (dirPath : Str) :
    sizesList ex dirPath [] = [] := rfl

theorem sizesList_cons (ex : Str → Bool) (dirPath : Str) (e : Entry)
    (rest : List Entry) :
    sizesList ex dirPath (e :: rest) =
      (if ex (dirPath ++ 47 :: entryName e) then []
       else sizesE ex (dirPath ++ 47 :: entryName e) e) ++ sizesList ex dirPath rest := rfl

theorem offsetsFromSizes_append (s1 s2 : List Nat) (off : Nat) :
    offsetsFromSizes off (s1 ++ s2) =
      offsetsFromSizes off s1 ++ offsetsFromSizes (off + s1.sum) s2 := by
  induction s1 generalizing off with
  | nil => simp [offsetsFromSizes]
  | cons s ss ih => simp [offsetsFromSizes, ih, Nat.add_assoc]

theorem lookupKey_mem (k : Str) (l : List (Str × PyVal)) (v : PyVal)
    (h : lookupKey k l = some v) : (k, v) ∈ l := by
  induction l with
  | nil => simp [lookupKey] at h
  | cons p rest ih =>
    obtain ⟨k2, v2⟩ := p
    rw [lookupKey] at h
    by_cases hk : k2 = k
    · rw [if_pos hk] at h
      subst hk
      cases h
      exact List.mem_cons_self _ _
    · rw [if_neg hk] at h
      exact List.mem_cons_of_mem _ (ih h)

/-- If every value of `l` is itself an object, the file-node pattern
(`'offset'` bound to a string and `'size'` to an int) cannot match, so
the collector recurses into the members. -/
theorem fileNodesV_obj_of_objs (l : List (Str × PyVal))
    (h : ∀ p ∈ l, ∃ m, p.2 = PyVal.obj m) :
    fileNodesV (PyVal.obj l) = fileNodesL l := by
  rw [fileNodesV]
  cases h1 : lookupKey kOffset l with
  | none => cases h2 : lookupKey kSize l <;> rfl
  | some v =>
    obtain ⟨m, hm⟩ := h _ (lookupKey_mem _ _ _ h1)
    dsimp at hm
    subst hm
    cases h2 : lookupKey kSize l <;> rfl

theorem fileNodesL_append (l1 l2 : List (Str × PyVal)) :
    fileNodesL (l1 ++ l2) = fileNodesL l1 ++ fileNodesL l2 := by
  induction l1 with
  | nil => rfl
  | cons p rest ih =>
    obtain ⟨k, v⟩ := p
    simp only [List.cons_append, fileNodesL, List.append_eq, ih, List.append_assoc]

theorem fileNodesV_files (x : PyVal) :
    fileNodesV (PyVal.obj [(kFiles, x)]) = fileNodesV x := by
  have h : fileNodesV (PyVal.obj [(kFiles, x)]) = fileNodesV x ++ [] := rfl
  rw [h, List.append_nil]

theorem fileNodesV_emptyObj : fileNodesV (PyVal.obj []) = [] := rfl

theorem fileNodesV_linkNode (t : Str) :
    fileNodesV (PyVal.obj [(kLink, PyVal.str t)]) = [] := rfl

theorem fileNodesV_fileNode (sz off : Nat) :
    fileNodesV (PyVal.obj [(kSize, PyVal.int sz),
      (kOffset, PyVal.str (toDecimal off))]) = [(off, sz)] := by
  have h : fileNodesV (PyVal.obj [(kSize, PyVal.int sz),
      (kOffset, PyVal.str (toDecimal off))]) =
      [(digitsVal (toDecimal off), (Int.ofNat sz).toNat)] := rfl
  rw [h, digitsVal_toDecimal]
  rfl

theorem hasName_eq_false_iff (k : Str) (es : List Entry) :
    hasName k es = false ↔ ∀ e ∈ es, entryName e ≠ k := by
  induction es with
  | nil => simp [hasName]
  | cons e rest ih =>
    rw [hasName]
    by_cases h : entryName e = k
    · simp [h]
    · simp [h, ih]

/-- Builder invariant: running the scan loop from state `st` over a
well-formed listing appends fresh entries whose values are all objects;
the file nodes of the appended entries, in document order, are exactly
the contiguous `(offset, size)` layout of the traversal-order sizes
starting at the running offset; and the final offset advances by their
total size. -/
theorem buildList_spec (rp : Str → Str) (ex : Str → Bool) :
    ∀ n : Nat, ∀ es : List Entry, sizeOf es ≤ n →
      ∀ dirPath : Str, ∀ st : BSt, ∀ acc : List (Str × PyVal),
      nodupNames es = true → wfList es = true →
      (∀ e ∈ es, hasKey (entryName e) acc = false) →
      ∃ new,
        (buildList rp ex dirPath es st acc).1 = acc ++ new ∧
        (∀ p ∈ new, ∃ m, p.2 = PyVal.obj m) ∧
        fileNodesL new = offsetsFromSizes st.1 (sizesList ex dirPath es) ∧
        (buildList rp ex dirPath es st acc).2.1 =
          st.1 + (sizesList ex dirPath es).sum := by
  intro n
  induction n using Nat.strong_induction_on with
  | _ n ih =>
    intro es hsz dirPath st acc hnd hwf hacc
    cases es with
    | nil => exact ⟨[], by simp [buildList_nil], by simp, rfl, rfl⟩
    | cons e rest =>
      have hszrest : sizeOf rest < n := by
        simp only [List.cons.sizeOf_spec] at hsz; omega
      rw [nodupNames, Bool.and_eq_true] at hnd
      obtain ⟨hnm, hndr⟩ := hnd
      rw [Bool.not_eq_true'] at hnm
      have hdist := (hasName_eq_false_iff _ _).mp hnm
      rw [wfList, Bool.and_eq_true] at hwf
      obtain ⟨hwe, hwr⟩ := hwf
      have hhe := (hasKey_eq_false_iff _ _).mp (hacc e (List.mem_cons_self e rest))
      have haccr : ∀ e2 ∈ rest, hasKey (entryName e2) acc = false :=
        fun e2 he2 => hacc e2 (List.mem_cons_of_mem _ he2)
      rw [buildList_cons_eq]
      by_cases hex : ex (dirPath ++ 47 :: entryName e) = true
      · rw [if_pos hex]
        obtain ⟨new, h1, h2, h3, h4⟩ :=
          ih _ hszrest rest (le_refl _) dirPath st acc hndr hwr haccr
        refine ⟨new, h1, h2, ?_, ?_⟩
        · rw [sizesList_cons, if_pos hex, List.nil_append]; exact h3
        · rw [sizesList_cons, if_pos hex, List.nil_append]; exact h4
      · rw [if_neg hex, sizesList_cons, if_neg hex]
        have hfresh : ∀ node : PyVal, ∀ e2 ∈ rest,
            hasKey (entryName e2) (acc ++ [(entryName e, node)]) = false := by
          intro node e2 he2
          rw [hasKey_eq_false_iff]
          intro p hp
          rcases List.mem_append.mp hp with hpa | hpb
          · exact (hasKey_eq_false_iff _ _).mp (haccr e2 he2) p hpa
          · have hp1 := List.mem_singleton.mp hpb
            subst hp1
            exact Ne.symm (hdist e2 he2)
        cases e with
        | file nm sz =>
          simp only [entryName] at hex hhe hdist hfresh ⊢
          rw [buildEntry_file]
          dsimp only
          rw [insertReplace_fresh acc _ hhe]
          obtain ⟨new2, h1, h2, h3, h4⟩ :=
            ih _ hszrest rest (le_refl _) dirPath
              (st.1 + sz, st.2 ++ [dirPath ++ 47 :: nm])
              (acc ++ [(nm, PyVal.obj [(kSize, PyVal.int sz),
                (kOffset, PyVal.str (toDecimal st.1))])]) hndr hwr
              (hfresh _)
          refine ⟨(nm, PyVal.obj [(kSize, PyVal.int sz),
            (kOffset, PyVal.str (toDecimal st.1))]) :: new2, ?_, ?_, ?_, ?_⟩
          · rw [h1]; simp
          · intro p hp
            rcases List.mem_cons.mp hp with hp1 | hp2
            · exact ⟨_, by rw [hp1]⟩
            · exact h2 p hp2
          · rw [fileNodesL, fileNodesV_fileNode, h3]
            simp [sizesE, offsetsFromSizes]
          · rw [h4]
            simp only [sizesE, List.singleton_append, List.sum_cons]
            omega
        | linkOther nm =>
          simp only [entryName] at hex hhe hdist hfresh ⊢
          rw [buildEntry_linkOther]
          dsimp only
          rw [insertReplace_fresh acc _ hhe]
          obtain ⟨new2, h1, h2, h3, h4⟩ :=
            ih _ hszrest rest (le_refl _) dirPath st
              (acc ++ [(nm, PyVal.obj [(kLink, PyVal.str (rp nm))])]) hndr hwr
              (hfresh _)
          refine ⟨(nm, PyVal.obj [(kLink, PyVal.str (rp nm))]) :: new2, ?_, ?_, ?_, ?_⟩
          · rw [h1]; simp
          · intro p hp
            rcases List.mem_cons.mp hp with hp1 | hp2
            · exact ⟨_, by rw [hp1]⟩
            · exact h2 p hp2
          · rw [fileNodesL, fileNodesV_linkNode, h3]
            simp [sizesE]
          · rw [h4]
            simp [sizesE]
        | dir nm d cs =>
          simp only [entryName] at hex hhe hdist hfresh ⊢
          rw [buildEntry_dir]
          rw [wfE, Bool.and_eq_true] at hwe
          obtain ⟨hndc, hwc⟩ := hwe
          have hszcs : sizeOf cs < n := by
            simp only [List.cons.sizeOf_spec, Entry.dir.sizeOf_spec] at hsz; omega
          by_cases hd : d = true
          · rw [if_pos hd]
            dsimp only
            rw [insertReplace_fresh acc _ hhe]
            obtain ⟨new2, h1, h2, h3, h4⟩ :=
              ih _ hszrest rest (le_refl _) dirPath st
                (acc ++ [(nm, PyVal.obj [(kFiles, PyVal.obj [])])]) hndr hwr
                (hfresh _)
            refine ⟨(nm, PyVal.obj [(kFiles, PyVal.obj [])]) :: new2, ?_, ?_, ?_, ?_⟩
            · rw [h1]; simp
            · intro p hp
              rcases List.mem_cons.mp hp with hp1 | hp2
              · exact ⟨_, by rw [hp1]⟩
              · exact h2 p hp2
            · rw [fileNodesL, fileNodesV_files, h3]
              simp [sizesE, hd, fileNodesV_emptyObj]
            · rw [h4]
              simp [sizesE, hd]
          · rw [if_neg hd]
            dsimp only
            obtain ⟨newC, c1, c2, c3, c4⟩ :=
              ih _ hszcs cs (le_refl _) (dirPath ++ 47 :: nm) st [] hndc hwc
                (fun e2 _ => rfl)
            rw [List.nil_append] at c1
            rw [c1]
            rw [insertReplace_fresh acc _ hhe]
            obtain ⟨new2, h1, h2, h3, h4⟩ :=
              ih _ hszrest rest (le_refl _) dirPath
                ((buildList rp ex (dirPath ++ 47 :: nm) cs st []).2)
                (acc ++ [(nm, PyVal.obj [(kFiles, PyVal.obj newC)])]) hndr hwr
                (hfresh _)
            refine ⟨(nm, PyVal.obj [(kFiles, PyVal.obj newC)]) :: new2, ?_, ?_, ?_, ?_⟩
            · rw [h1]; simp
            · intro p hp
              rcases List.mem_cons.mp hp with hp1 | hp2
              · exact ⟨_, by rw [hp1]⟩
              · exact h2 p hp2
            · rw [fileNodesL, fileNodesV_files, fileNodesV_obj_of_objs newC c2, c3,
                h3, c4, sizesE, if_neg hd, offsetsFromSizes_append]
            · rw [h4, c4, sizesE, if_neg hd, List.sum_append]
              omega
        | linkDir nm d cs =>
          simp only [entryName] at hex hhe hdist hfresh ⊢
          rw [buildEntry_linkDir]
          rw [wfE, Bool.and_eq_true] at hwe
          obtain ⟨hndc, hwc⟩ := hwe
          have hszcs : sizeOf cs < n := by
            simp only [List.cons.sizeOf_spec, Entry.linkDir.sizeOf_spec] at hsz; omega
          by_cases hd : d = true
          · rw [if_pos hd]
            dsimp only
            rw [insertReplace_fresh acc _ hhe]
            obtain ⟨new2, h1, h2, h3, h4⟩ :=
              ih _ hszrest rest (le_refl _) dirPath st
                (acc ++ [(nm, PyVal.obj [(kFiles, PyVal.obj [])])]) hndr hwr
                (hfresh _)
            refine ⟨(nm, PyVal.obj [(kFiles, PyVal.obj [])]) :: new2, ?_, ?_, ?_, ?_⟩
            · rw [h1]; simp
            · intro p hp
              rcases List.mem_cons.mp hp with hp1 | hp2
              · exact ⟨_, by rw [hp1]⟩
              · exact h2 p hp2
            · rw [fileNodesL, fileNodesV_files, h3]
              simp [sizesE, hd, fileNodesV_emptyObj]
            · rw [h4]
              simp [sizesE, hd]
          · rw [if_neg hd]
            dsimp only
            obtain ⟨newC, c1, c2, c3, c4⟩ :=
              ih _ hszcs cs (le_refl _) (dirPath ++ 47 :: nm) st [] hndc hwc
                (fun e2 _ => rfl)
            rw [List.nil_append] at c1
            rw [c1]
            rw [insertReplace_fresh acc _ hhe]
            obtain ⟨new2, h1, h2, h3, h4⟩ :=
              ih _ hszrest rest (le_refl _) dirPath
                ((buildList rp ex (dirPath ++ 47 :: nm) cs st []).2)
                (acc ++ [(nm, PyVal.obj [(kFiles, PyVal.obj newC)])]) hndr hwr
                (hfresh _)
            refine ⟨(nm, PyVal.obj [(kFiles, PyVal.obj newC)]) :: new2, ?_, ?_, ?_, ?_⟩
            · rw [h1]; simp
            · intro p hp
              rcases List.mem_cons.mp hp with hp1 | hp2
              · exact ⟨_, by rw [hp1]⟩
              · exact h2 p hp2
            · rw [fileNodesL, fileNodesV_files, fileNodesV_obj_of_objs newC c2, c3,
                h3, c4, sizesE, if_neg hd, offsetsFromSizes_append]
            · rw [h4, c4, sizesE, if_neg hd, List.sum_append]
              omega

theorem offsetsFromSizes_chain (ss : List Nat) :
    ∀ off : Nat, List.Chain' (fun p q : Nat × Nat => q.1 = p.1 + p.2)
      (offsetsFromSizes off ss) := by
  induction ss with
  | nil => intro off; exact List.chain'_nil
  | cons s ss ih =>
    intro off
    rw [offsetsFromSizes]
    cases ss with
    | nil => simp [offsetsFromSizes]
    | cons s2 ss2 =>
      rw [offsetsFromSizes]
      refine List.Chain'.cons rfl ?_
      have h := ih (off + s)
      rw [offsetsFromSizes] at h
      exact h

theorem offsetsFromSizes_chain_lt (ss : List Nat) :
    ∀ off : Nat, (∀ s ∈ ss, 0 < s) →
      List.Chain' (fun p q : Nat × Nat => p.1 < q.1) (offsetsFromSizes off ss) := by
  induction ss with
  | nil => intro off _; exact List.chain'_nil
  | cons s ss ih =>
    intro off h
    rw [offsetsFromSizes]
    cases ss with
    | nil => simp [offsetsFromSizes]
    | cons s2 ss2 =>
      rw [offsetsFromSizes]
      refine List.Chain'.cons ?_ ?_
      · have hs := h s (List.mem_cons_self _ _)
        show off < off + s
        omega
      · have h2 := ih (off + s) (fun t ht => h t (List.mem_cons_of_mem _ ht))
        rw [offsetsFromSizes] at h2
        exact h2

theorem offsetsFromSizes_head (ss : List Nat) :
    ((offsetsFromSizes 0 ss).headD (0, 0)).1 = 0 := by
  cases ss <;> rfl

/-- C2.  Counterexample: the claim asserts strictly increasing offsets
for every packed tree, but a zero-size file does not advance the running
offset, so a listing with a zero-size file `a` followed by `b` produces
file nodes `[(0, 0), (0, 1)]` — contiguous, but not strictly
increasing. -/
theorem claim_C2_cex :
    fileNodesV (pathToDict (fun s => s) (fun _ => false) [114] false
      [Entry.file [97] 0, Entry.file [98] 1] (0, [])).1 = [(0, 0), (0, 1)] ∧
    ¬ List.Chain' (fun p q : Nat × Nat => p.1 < q.1) [(0, 0), (0, 1)] := by
  constructor
  · decide
  · simp [List.chain'_cons]

/-- C2 (amended).  For every well-formed listing (pairwise-distinct names
per directory, as `os.scandir` guarantees), the file nodes of the packed
tree, in traversal order, are exactly the contiguous layout of the
traversal-order sizes: the first offset is 0, each next offset is the
previous offset plus the previous size, and the offsets are strictly
increasing provided every included file has positive size. -/
theorem claim_C2_amended (rp : Str → Str) (ex : Str → Bool) (dirPath : Str)
    (entries : List Entry) (hnd : nodupNames entries = true)
    (hwf : wfList entries = true) :
    fileNodesV (pathToDict rp ex dirPath false entries (0, [])).1 =
      offsetsFromSizes 0 (sizesList ex dirPath entries) ∧
    ((fileNodesV (pathToDict rp ex dirPath false entries (0, [])).1).headD (0, 0)).1 = 0 ∧
    List.Chain' (fun p q : Nat × Nat => q.1 = p.1 + p.2)
      (fileNodesV (pathToDict rp ex dirPath false entries (0, [])).1) ∧
    ((∀ s ∈ sizesList ex dirPath entries, 0 < s) →
      List.Chain' (fun p q : Nat × Nat => p.1 < q.1)
        (fileNodesV (pathToDict rp ex dirPath false entries (0, [])).1)) := by
  obtain ⟨new, h1, h2, h3, h4⟩ :=
    buildList_spec rp ex (sizeOf entries) entries (le_refl _) dirPath (0, []) []
      hnd hwf (fun _ _ => rfl)
  have hmain : fileNodesV (pathToDict rp ex dirPath false entries (0, [])).1 =
      offsetsFromSizes 0 (sizesList ex dirPath entries) := by
    have hp : (pathToDict rp ex dirPath false entries (0, [])).1 =
        PyVal.obj [(kFiles, PyVal.obj (buildList rp ex dirPath entries (0, []) []).1)] := rfl
    rw [List.nil_append] at h1
    rw [hp, fileNodesV_files, h1, fileNodesV_obj_of_objs new h2]
    exact h3
  refine ⟨hmain, ?_, ?_, ?_⟩
  · rw [hmain]; exact offsetsFromSizes_head _
  · rw [hmain]; exact offsetsFromSizes_chain _ 0
  · intro hpos
    rw [hmain]
    exact offsetsFromSizes_chain_lt _ 0 hpos

theorem claim_C2_amended_witness :
    nodupNames [Entry.file [97] 2, Entry.file [98] 3] = true ∧
    List.Chain' (fun p q : Nat × Nat => p.1 < q.1)
      (fileNodesV (pathToDict (fun s => s) (fun _ => false) [115] false
        [Entry.file [97] 2, Entry.file [98] 3] (0, [])).1) :=
  ⟨by decide,
    (claim_C2_amended (fun s => s) (fun _ => false) [115]
      [Entry.file [97] 2, Entry.file [98] 3] (by decide) (by decide)).2.2.2
      (by decide)⟩

/-- C10.  A symlink whose resolved target is a directory satisfies
`os.path.isdir(f.path)` (which follows symlinks), and that check comes
before `f.is_symlink()` in `_path_to_dict`, so the entry is processed
exactly like a real directory — recursed into, producing a
`\x7b'files': ...}` node — and never yields a `\x7b'link': ...}` node. -/
theorem claim_C10_symlink_to_directory (rp : Str → Str) (ex : Str → Bool)
    (fpath nm : Str) (d : Bool) (cs : List Entry) (st : BSt) :
    buildEntry rp ex fpath (Entry.linkDir nm d cs) st =
      buildEntry rp ex fpath (Entry.dir nm d cs) st ∧
    isdirE (Entry.linkDir nm d cs) = true ∧
    islinkE (Entry.linkDir nm d cs) = true ∧
    (∃ inner : PyVal,
      (buildEntry rp ex fpath (Entry.linkDir nm d cs) st).1 =
        PyVal.obj [(kFiles, inner)]) := by
  refine ⟨rfl, rfl, rfl, ?_⟩
  rw [buildEntry_linkDir]
  by_cases hd : d = true
  · rw [if_pos hd]
    exact ⟨PyVal.obj [], rfl⟩
  · rw [if_neg hd]
    exact ⟨_, rfl⟩

/-- C8.  Code bug: line 71 stores `os.path.realpath(f.name)` — the *bare
entry name*, resolved against the process working directory — so the
recorded target of a symlink node depends only on the name, never on the
directory being scanned (first conjunct: the scanned location `fpath` is
not consulted).  Concretely (second conjunct): with a realpath that
resolves relative names against a working directory `/cwd`, packing a
tree containing `r/s/l` where `l` is a symlink stores the target
`/cwd/l`, not a resolution of `r/s/l`. -/
theorem claim_C8_symlink_cwd_resolution :
    (∀ (rp : Str → Str) (ex : Str → Bool) (fpath nm : Str) (st : BSt),
      buildEntry rp ex fpath (Entry.linkOther nm) st =
        (PyVal.obj [(kLink, PyVal.str (rp nm))], st)) ∧
    (pathToDict (fun s => [47, 99, 119, 100, 47] ++ s) (fun _ => false)
        [114] false [Entry.dir [115] false [Entry.linkOther [108]]] (0, [])).1 =
      PyVal.obj [(kFiles, PyVal.obj [([115], PyVal.obj [(kFiles, PyVal.obj
        [([108], PyVal.obj [(kLink,
          PyVal.str [47, 99, 119, 100, 47, 108])])])])])] := by
  exact ⟨fun rp ex fpath nm st => rfl, rfl⟩

/-- The archive root directory used in the C7 scenario: three one-name
files `a`, `b`, `c` of two bytes each under root `r`. -/
def c7Entries : List Entry :=
  [Entry.file [97] 2, Entry.file [98] 2, Entry.file [99] 2]

/-- A read function under which `r/b` cannot be read (`open`/`read`
raises) while `r/a` and `r/c` yield their two bytes. -/
def readOneMissing : Str → Option (List Nat) := fun p =>
  if p = [114, 47, 97] then some [104, 105]
  else if p = [114, 47, 99] then some [121, 111] else none

/-- C7.  Code bug: `_paths_to_bytes` catches any read error, prints, and
continues, omitting the failed file's bytes; it has no error channel, so
the pack completes.  Concretely: the builder records the three files at
offsets 0, 2, 4 (each of size 2) and lists their paths, but with `r/b`
unreadable the assembled payload is the 4 bytes of `a` and `c` — `c`'s
bytes now sit at offset 2 where the header says `b` is, and `c`'s
recorded range `[4, 6)` extends past the 4-byte payload. -/
theorem claim_C7_read_failure_not_fatal :
    (pathToDict (fun s => s) (fun _ => false) [114] false c7Entries (0, [])).2.2 =
      [[114, 47, 97], [114, 47, 98], [114, 47, 99]] ∧
    fileNodesV (pathToDict (fun s => s) (fun _ => false) [114] false
      c7Entries (0, [])).1 = [(0, 2), (2, 2), (4, 2)] ∧
    pathsToBytes readOneMissing [[114, 47, 97], [114, 47, 98], [114, 47, 99]] =
      [104, 105, 121, 111] ∧
    (pathsToBytes readOneMissing
      [[114, 47, 97], [114, 47, 98], [114, 47, 99]]).length < 4 + 2 := by
  refine ⟨?_, ?_, ?_, ?_⟩ <;> decide

/-! ## `list_files` and `get_file_info` (lines 118-132, 160-167)

The walk operates on the decoded header (a `PyVal` tree).  We model
`os.path.join` for POSIX and the `.replace('\\\\', '/')` cleanup.  The
walk treats a member as a directory exactly when its info dict has a
`'files'` key, appending a trailing-slash marker for it *in addition to*
walking its children; all other members are appended as leaves.  (A
non-object info value would make the source crash on `.items()` or
behave as a substring test; such values never occur in trees produced by
`_path_to_dict` or decoded by `json.loads` from them, and the walk
treats them as leaves.) -/

def pyJoin (a b : Str) : Str :=
  if b.head? = some 47 then b
  else if a = [] then b
  else if a.getLast? = some 47 then a ++ b
  else a ++ 47 :: b

def replaceBS (s : Str) : Str := s.map (fun c => if c = 92 then 47 else c)

mutual

/-- `_walk_files(files_dict, current_path)`: one pass over the members of
a `'files'` dict. -/
def walkFiles (current : Str) : List (Str × PyVal) → List Str
  | [] => []
  | (nm, info) :: rest => walkInfo current nm info ++ walkFiles current rest
  termination_by structural l => l

/-- The body of the loop for one `(name, info)` member: directory marker
plus recursive walk when `'files' in info`, else a leaf path. -/
def walkInfo (current nm : Str) : PyVal → List Str
  | .str _ => [replaceBS (pyJoin current nm)]
  | .int _ => [replaceBS (pyJoin current nm)]
  | .obj l =>
    if hasKey kFiles l then
      (replaceBS (pyJoin current nm) ++ [47]) ::
        walkFilesOf (replaceBS (pyJoin current nm)) l
    else [replaceBS (pyJoin current nm)]
  termination_by structural v => v

/-- Walk `info['files']`: find the `'files'` member and walk its
members. -/
def walkFilesOf (current : Str) : List (Str × PyVal) → List Str
  | [] => []
  | (k, v) :: rest =>
    if k = kFiles then
      match v with
      | .obj m => walkFiles current m
      | _ => []
    else walkFilesOf current rest
  termination_by structural l => l

end

/-- `Asar.list_files(prefix)`: walk `self.header['files']` from
`current_path = ""` and keep the paths that start with `prefix`. -/
def list_files (header : PyVal) (pfx : Str) : List Str :=
  (match header with
   | PyVal.obj l => walkFilesOf [] l
   | _ => []).filter (fun f => pfx.isPrefixOf f)

/-- `get_file_info`'s `file_count` field: `len(self.list_files())`. -/
def file_count (header : PyVal) : Nat := (list_files header []).length

mutual

/-- Specification-side counter: the number of `File` + `Symlink`
*leaves* under an info value (a directory contributes only its
children). -/
def specLeafCountV : PyVal → Nat
  | .str _ => 1
  | .int _ => 1
  | .obj l => if hasKey kFiles l then specLeafCountFiles l else 1
  termination_by structural v => v

def specLeafCountFiles : List (Str × PyVal) → Nat
  | [] => 0
  | (k, v) :: rest =>
    if k = kFiles then
      match v with
      | .obj m => specLeafCountL m
      | _ => 0
    else specLeafCountFiles rest
  termination_by structural l => l

def specLeafCountL : List (Str × PyVal) → Nat
  | [] => 0
  | (_, v) :: rest => specLeafCountV v + specLeafCountL rest
  termination_by structural l => l

end

mutual

/-- Specification-side counter: the number of *directories* under an
info value (each directory counts itself plus its subdirectories). -/
def specDirCountV : PyVal → Nat
  | .str _ => 0
  | .int _ => 0
  | .obj l => if hasKey kFiles l then 1 + specDirCountFiles l else 0
  termination_by structural v => v

def specDirCountFiles : List (Str × PyVal) → Nat
  | [] => 0
  | (k, v) :: rest =>
    if k = kFiles then
      match v with
      | .obj m => specDirCountL m
      | _ => 0
    else specDirCountFiles rest
  termination_by structural l => l

def specDirCountL : List (Str × PyVal) → Nat
  | [] => 0
  | (_, v) :: rest => specDirCountV v + specDirCountL rest
  termination_by structural l => l

end

/-- The walk emits one path per leaf *and one marker per directory*. -/
theorem walk_length : ∀ n : Nat, ∀ l : List (Str × PyVal), sizeOf l ≤ n →
    (∀ current, (walkFiles current l).length =
      specLeafCountL l + specDirCountL l) ∧
    (∀ current, (walkFilesOf current l).length =
      specLeafCountFiles l + specDirCountFiles l) := by
  intro n
  induction n using Nat.strong_induction_on with
  | _ n ih =>
    intro l hsz
    cases l with
    | nil => exact ⟨fun _ => rfl, fun _ => rfl⟩
    | cons p rest =>
      obtain ⟨nm, info⟩ := p
      have hszrest : sizeOf rest < n := by simp_arith at hsz; omega
      constructor
      · intro current
        rw [walkFiles, List.length_append, specLeafCountL, specDirCountL,
          (ih _ hszrest rest (le_refl _)).1 current]
        have hinfo : (walkInfo current nm info).length =
            specLeafCountV info + specDirCountV info := by
          cases info with
          | str s => rfl
          | int z => rfl
          | obj l2 =>
            rw [walkInfo, specLeafCountV, specDirCountV]
            by_cases hk : hasKey kFiles l2 = true
            · rw [if_pos hk, if_pos hk, if_pos hk, List.length_cons]
              have h2 : sizeOf l2 < n := by simp_arith at hsz; omega
              rw [(ih _ h2 l2 (le_refl _)).2 (replaceBS (pyJoin current nm))]
              omega
            · rw [if_neg hk, if_neg hk, if_neg hk]
              rfl
        rw [hinfo]
        omega
      · intro current
        cases info with
        | str s =>
          have e1 : walkFilesOf current ((nm, PyVal.str s) :: rest) =
              (if nm = kFiles then [] else walkFilesOf current rest) := rfl
          have e2 : specLeafCountFiles ((nm, PyVal.str s) :: rest) =
              (if nm = kFiles then 0 else specLeafCountFiles rest) := rfl
          have e3 : specDirCountFiles ((nm, PyVal.str s) :: rest) =
              (if nm = kFiles then 0 else specDirCountFiles rest) := rfl
          rw [e1, e2, e3]
          by_cases hk : nm = kFiles
          · rw [if_pos hk, if_pos hk, if_pos hk]; rfl
          · rw [if_neg hk, if_neg hk, if_neg hk]
            exact (ih _ hszrest rest (le_refl _)).2 current
        | int z =>
          have e1 : walkFilesOf current ((nm, PyVal.int z) :: rest) =
              (if nm = kFiles then [] else walkFilesOf current rest) := rfl
          have e2 : specLeafCountFiles ((nm, PyVal.int z) :: rest) =
              (if nm = kFiles then 0 else specLeafCountFiles rest) := rfl
          have e3 : specDirCountFiles ((nm, PyVal.int z) :: rest) =
              (if nm = kFiles then 0 else specDirCountFiles rest) := rfl
          rw [e1, e2, e3]
          by_cases hk : nm = kFiles
          · rw [if_pos hk, if_pos hk, if_pos hk]; rfl
          · rw [if_neg hk, if_neg hk, if_neg hk]
            exact (ih _ hszrest rest (le_refl _)).2 current
        | obj m =>
          have e1 : walkFilesOf current ((nm, PyVal.obj m) :: rest) =
              (if nm = kFiles then walkFiles current m
               else walkFilesOf current rest) := rfl
          have e2 : specLeafCountFiles ((nm, PyVal.obj m) :: rest) =
              (if nm = kFiles then specLeafCountL m
               else specLeafCountFiles rest) := rfl
          have e3 : specDirCountFiles ((nm, PyVal.obj m) :: rest) =
              (if nm = kFiles then specDirCountL m
               else specDirCountFiles rest) := rfl
          rw [e1, e2, e3]
          by_cases hk : nm = kFiles
          · rw [if_pos hk, if_pos hk, if_pos hk]
            have h2 : sizeOf m < n := by simp_arith at hsz; omega
            exact (ih _ h2 m (le_refl _)).1 current
          · rw [if_neg hk, if_neg hk, if_neg hk]
            exact (ih _ hszrest rest (le_refl _)).2 current

/-- C9.  Counterexample: the claim says `file_count` equals the number
of `File` + `Symlink` leaves, but `list_files` also appends a
trailing-slash marker for every directory it walks, and
`get_file_info` counts those too.  A tree with one directory `d`
containing one file `f` has one leaf, yet `file_count` is 2. -/
theorem claim_C9_cex :
    file_count (PyVal.obj [(kFiles, PyVal.obj [([100], PyVal.obj [(kFiles,
      PyVal.obj [([102], PyVal.obj [(kSize, PyVal.int 1),
        (kOffset, PyVal.str [48])])])])])]) = 2 ∧
    specLeafCountFiles [(kFiles, PyVal.obj [([100], PyVal.obj [(kFiles,
      PyVal.obj [([102], PyVal.obj [(kSize, PyVal.int 1),
        (kOffset, PyVal.str [48])])])])])] = 1 ∧
    file_count (PyVal.obj [(kFiles, PyVal.obj [([100], PyVal.obj [(kFiles,
      PyVal.obj [([102], PyVal.obj [(kSize, PyVal.int 1),
        (kOffset, PyVal.str [48])])])])])]) ≠
      specLeafCountFiles [(kFiles, PyVal.obj [([100], PyVal.obj [(kFiles,
        PyVal.obj [([102], PyVal.obj [(kSize, PyVal.int 1),
          (kOffset, PyVal.str [48])])])])])] := by
  refine ⟨?_, ?_, ?_⟩ <;> decide

/-- C9 (amended).  For every header object, `file_count` equals the
number of `File` + `Symlink` leaves *plus* the number of directories of
the tree (each directory contributes its trailing-slash marker to
`list_files`, and the empty prefix filters nothing out). -/
theorem claim_C9_amended (l : List (Str × PyVal)) :
    file_count (PyVal.obj l) = specLeafCountFiles l + specDirCountFiles l := by
  have h0 : file_count (PyVal.obj l) = (walkFilesOf [] l).length := by
    show ((walkFilesOf [] l).filter (fun f => List.isPrefixOf [] f)).length = _
    exact congrArg List.length (List.filter_eq_self.mpr (fun a _ => by cases a <;> rfl))
  rw [h0]
  exact (walk_length (sizeOf l) l (le_refl _)).2 []

/-! ## `extract_file` (lines 134-158)

`file_path.replace('\\\\', '/').split('/')` is `pySplitSlash ∘ replaceBS`
(Python `str.split` keeps empty pieces).  `_find_file` walks the parts;
descending requires the current info to be a dict with a `'files'` key.
(If the `'files'` value were not a dict, the recursive call's `name not
in files_dict` would raise; such trees never arise from this encoder or
decoder, and the model answers `None`.)  The final guard, line 154, is
`if not file_info or 'offset' not in file_info: raise FileNotFoundError`:
Python falsiness of the found value, then membership.  A non-dict value
reaching the membership test raises `TypeError` (an `int` immediately; a
`str` either at the test or, if it happens to contain the literal text
offset, at the `file_info['offset']` subscript) — never
`FileNotFoundError` and never success — modelled as `AErr.typeError`.
Reading seeks `base_offset + int(offset)` and reads `int(size)` bytes of
the archive. -/

inductive AErr where
  | notFound
  | keyError
  | typeError
  | alreadyExists
deriving DecidableEq

def splitAux : List Nat → List Nat → List Str
  | [], cur => [cur.reverse]
  | c :: rest, cur =>
    if c = 47 then cur.reverse :: splitAux rest [] else splitAux rest (c :: cur)

def pySplitSlash (s : Str) : List Str := splitAux s []

/-- Python truthiness: `None` is handled by `Option`; `''`, `0` and the
empty dict are falsy. -/
def pyFalsyV : PyVal → Bool
  | .str s => s.isEmpty
  | .int z => decide (z = 0)
  | .obj l => l.isEmpty

def hasFilesV : PyVal → Bool
  | .obj l => hasKey kFiles l
  | _ => false

/-- `int(v)`: parse a decimal string, or truncate an int. -/
def intOfVal : PyVal → Nat
  | .str ds => digitsVal ds
  | .int z => z.toNat
  | .obj _ => 0

def findFile : List (Str × PyVal) → List Str → Option PyVal
  | _, [] => none
  | fd, nm :: rest =>
    match lookupKey nm fd with
    | none => none
    | some info =>
      match rest with
      | [] => some info
      | _ :: _ =>
        match info with
        | PyVal.obj l =>
          if hasKey kFiles l then
            match lookupKey kFiles l with
            | some (PyVal.obj m) => findFile m rest
            | _ => none
          else none
        | _ => none
  termination_by structural _ parts => parts

def extract_file (hl : List (Str × PyVal)) (base : Nat) (data : List Nat)
    (fp : Str) : Except AErr (List Nat) :=
  match findFile hl (pySplitSlash (replaceBS fp)) with
  | none => Except.error AErr.notFound
  | some info =>
    if pyFalsyV info then Except.error AErr.notFound
    else
      match info with
      | PyVal.obj l =>
        match lookupKey kOffset l with
        | none => Except.error AErr.notFound
        | some ov =>
          match lookupKey kSize l with
          | none => Except.error AErr.keyError
          | some sv =>
            Except.ok ((data.drop (base + intOfVal ov)).take (intOfVal sv))
      | _ => Except.error AErr.typeError

/-- C5.  `extract_file` raises `FileNotFoundError` in every not-found
situation: when the path lookup fails outright (a segment absent, or the
walk cannot continue); when the found value is falsy (e.g. an empty
dict); and when the found dict has no `'offset'` key (directories and
symlink nodes included).  The fourth conjunct shows the lookup does fail
whenever a non-final segment resolves to anything but a dict with
`'files'` — descending into a `File` node fails.  The last conjunct is
the claim's concrete case: `extract_file("missing/x.txt")` on an archive
with a single file `a` answers `FileNotFoundError`. -/
theorem claim_C5_not_found (hl : List (Str × PyVal)) (base : Nat)
    (data : List Nat) (fp : Str) :
    (findFile hl (pySplitSlash (replaceBS fp)) = none →
      extract_file hl base data fp = Except.error AErr.notFound) ∧
    (∀ info, findFile hl (pySplitSlash (replaceBS fp)) = some info →
      pyFalsyV info = true →
      extract_file hl base data fp = Except.error AErr.notFound) ∧
    (∀ l, findFile hl (pySplitSlash (replaceBS fp)) = some (PyVal.obj l) →
      lookupKey kOffset l = none →
      extract_file hl base data fp = Except.error AErr.notFound) ∧
    (∀ (fd : List (Str × PyVal)) (nm : Str) (rest : List Str) (info : PyVal),
      rest ≠ [] → lookupKey nm fd = some info → hasFilesV info = false →
      findFile fd (nm :: rest) = none) ∧
    extract_file [([97], PyVal.obj [(kSize, PyVal.int 2),
        (kOffset, PyVal.str [48])])] 20 []
      [109, 105, 115, 115, 105, 110, 103, 47, 120, 46, 116, 120, 116] =
      Except.error AErr.notFound := by
  refine ⟨?_, ?_, ?_, ?_, rfl⟩
  · intro h
    rw [extract_file.eq_def, h]
  · intro info h hf
    rw [extract_file.eq_def, h]
    dsimp only
    rw [if_pos hf]
  · intro l h ho
    rw [extract_file.eq_def, h]
    dsimp only
    by_cases hf : pyFalsyV (PyVal.obj l) = true
    · rw [if_pos hf]
    · rw [if_neg hf]
      rw [ho]
  · intro fd nm rest info hne hlk hnf
    cases rest with
    | nil => exact absurd rfl hne
    | cons r rs =>
      rw [findFile.eq_def]
      dsimp only
      rw [hlk]
      cases info with
      | str s => rfl
      | int z => rfl
      | obj l =>
        simp only [hasFilesV] at hnf
        show (if hasKey kFiles l = true then
            match lookupKey kFiles l with
            | some (PyVal.obj m) => findFile m (r :: rs)
            | _ => none
          else none) = none
        rw [hnf]
        simp

theorem claim_C5_not_found_witness :
    findFile [([97], PyVal.obj [(kSize, PyVal.int 2), (kOffset, PyVal.str [48])])]
      (pySplitSlash (replaceBS
        [109, 105, 115, 115, 105, 110, 103, 47, 120, 46, 116, 120, 116])) = none ∧
    extract_file [([97], PyVal.obj [(kSize, PyVal.int 2),
        (kOffset, PyVal.str [48])])] 20 []
      [109, 105, 115, 115, 105, 110, 103, 47, 120, 46, 116, 120, 116] =
      Except.error AErr.notFound :=
  ⟨rfl, (claim_C5_not_found [([97], PyVal.obj [(kSize, PyVal.int 2),
    (kOffset, PyVal.str [48])])] 20 []
    [109, 105, 115, 115, 105, 110, 103, 47, 120, 46, 116, 120, 116]).1 rfl⟩

/-! ## `extract` (lines 227-232) and `_extract_directory` (211-225)

The filesystem is modelled as the list of existing paths; every creation
(`os.makedirs`, file write, `os.symlink`) goes through `addPath`.
`_extract_directory` walks `source`-relative segment lists (the source
strings `'.'`, `'./d'`, ... collapse to these under `os.path.normpath`):
it creates the directory, then handles each member — a `'files'` dict
recursively, a `'link'` via `os.symlink`, anything else as a file write
(`_extract_file`, or its unpacked-copy fallback).  `extract` itself
checks `os.path.exists(path)` and raises `FileExistsError` *before* any
of this runs. -/

def addPath (fs : List Str) (p : Str) : List Str :=
  if p ∈ fs then fs else fs ++ [p]

def joinSegs (root : Str) : List Str → Str
  | [] => root
  | s :: rest => joinSegs (root ++ 47 :: s) rest

mutual

/-- Handle one member value at `srcPath` (relative segments). -/
def extractItem (fs : List Str) (destRoot : Str) (srcPath : List Str) :
    PyVal → List Str
  | .obj l =>
    if hasKey kFiles l then
      extractFilesOf (addPath fs (joinSegs destRoot srcPath)) destRoot srcPath l
    else addPath fs (joinSegs destRoot srcPath)
  | .str _ => addPath fs (joinSegs destRoot srcPath)
  | .int _ => addPath fs (joinSegs destRoot srcPath)
  termination_by structural v => v

/-- Recurse into the member's `'files'` dict. -/
def extractFilesOf (fs : List Str) (destRoot : Str) (srcPath : List Str) :
    List (Str × PyVal) → List Str
  | [] => fs
  | (k, v) :: rest =>
    if k = kFiles then
      match v with
      | .obj m => extractItems fs destRoot srcPath m
      | _ => fs
    else extractFilesOf fs destRoot srcPath rest
  termination_by structural l => l

/-- The `for name, info in files.items()` loop. -/
def extractItems (fs : List Str) (destRoot : Str) (srcPath : List Str) :
    List (Str × PyVal) → List Str
  | [] => fs
  | (nm, info) :: rest =>
    extractItems (extractItem fs destRoot (srcPath ++ [nm]) info)
      destRoot srcPath rest
  termination_by structural l => l

end

/-- `Asar.extract(path)`: guard on an existing destination, else extract
`self.header['files']` into a fresh tree rooted at `dest`. -/
def extract (fs : List Str) (header : PyVal) (dest : Str) :
    Except AErr (List Str) :=
  if dest ∈ fs then Except.error AErr.alreadyExists
  else Except.ok
    (match header with
     | PyVal.obj l =>
       match lookupKey kFiles l with
       | some (PyVal.obj m) => extractItems (addPath fs dest) dest [] m
       | _ => addPath fs dest
     | _ => addPath fs dest)

/-- C6.  With a destination that already exists, `extract` fails with
`FileExistsError`: the existence check at line 230 precedes the
`_extract_directory` call, so no path is created or changed — the call
never returns a modified filesystem. -/
theorem claim_C6_existing_destination (fs : List Str) (header : PyVal)
    (dest : Str) (h : dest ∈ fs) :
    extract fs header dest = Except.error AErr.alreadyExists ∧
    ∀ fs2, extract fs header dest ≠ Except.ok fs2 := by
  have he : extract fs header dest = Except.error AErr.alreadyExists := by
    simp only [extract, if_pos h]
  refine ⟨he, fun fs2 hc => ?_⟩
  rw [he] at hc
  exact Except.noConfusion hc

theorem claim_C6_existing_destination_witness :
    ([100] : Str) ∈ [([100] : Str)] ∧
    extract [[100]] (PyVal.obj []) [100] = Except.error AErr.alreadyExists :=
  ⟨by decide,
    (claim_C6_existing_destination [[100]] (PyVal.obj []) [100] (by decide)).1⟩

end Asartool
